import Mathlib

/-!
Verification of the daily-notes processor (examples/uv/daily_notes_processor.py).

The development shallowly embeds the three core components of the script:
the URL pattern matchers, the HTML highlight/link extractor built on the
parsed-tree collaborator, and the duplicate-note merger over an explicit
note store.  Strings are modelled by Lean `String` (a wrapper around
`List Char`), with the Python string primitives re-implemented on
`List Char` so that every definition evaluates inside the kernel.  The
Python regular expressions used by the script are fixed patterns, modelled
by hand-written deterministic scanners that implement the same leftmost,
non-overlapping matching that `re.search`/`re.sub` perform on those
particular patterns.  External collaborators (the ETAPI note store,
newspaper3k, BeautifulSoup) are modelled as explicit state or as function
parameters, mirroring the calls the script makes.
-/

/-! ## Python string primitives -/

/-- The whitespace class of Python `str.strip` / regex `\s` (ASCII range). -/
def pySpace (c : Char) : Bool :=
  c == ' ' || c == '\t' || c == '\n' || c == '\r' || c == '\x0b' || c == '\x0c'

/-- Python `str.strip()`: drop leading and trailing whitespace. -/
def pyStripL (l : List Char) : List Char :=
  ((l.dropWhile pySpace).reverse.dropWhile pySpace).reverse

/-- Python `str.strip()` on `String`. -/
def pyStrip (s : String) : String :=
  String.mk (pyStripL s.data)

/-- Lexicographic (code-point) strict comparison of character lists, the
order underlying Python string `<` and the Trilium date-string comparison. -/
def charListLt : List Char → List Char → Bool
  | [], [] => false
  | [], _ :: _ => true
  | _ :: _, [] => false
  | a :: as, b :: bs => if a < b then true else if b < a then false else charListLt as bs

/-- Strict lexicographic order on strings. -/
def strLt (a b : String) : Bool := charListLt a.data b.data

/-- Non-strict lexicographic order on strings. -/
def strLe (a b : String) : Bool := strLt a b || a == b

/-- Python `s.startswith(p)`. -/
def strStartsWith (s p : String) : Bool := p.data.isPrefixOf s.data

/-- Substring test at the character-list level. -/
def infixOfL (needle : List Char) : List Char → Bool
  | [] => needle.isEmpty
  | c :: rest => needle.isPrefixOf (c :: rest) || infixOfL needle rest

/-- Python `needle in hay`. -/
def containsStr (hay needle : String) : Bool := infixOfL needle.data hay.data

/-- Python `text.split('\n')`, with an accumulator for the current piece. -/
def splitNlAux : List Char → List Char → List (List Char)
  | [], cur => [cur.reverse]
  | c :: rest, cur => if c == '\n' then cur.reverse :: splitNlAux rest [] else splitNlAux rest (c :: cur)

/-- Python `text.split('\n')`. -/
def splitNl (l : List Char) : List (List Char) := splitNlAux l []

/-- Python `', '.join(xs)`-style joining with a separator. -/
def joinWith (sep : List Char) : List (List Char) → List Char
  | [] => []
  | [x] => x
  | x :: y :: rest => x ++ sep ++ joinWith sep (y :: rest)

/-- Join a list of strings with a separator string. -/
def joinStr (sep : String) (xs : List String) : String :=
  String.mk (joinWith sep.data (xs.map String.data))

/-- Python slicing `s[:10]`, used to cut the date part out of a Trilium
datetime string. -/
def datePart (s : String) : String := String.mk (s.data.take 10)

/-- ASCII lower-casing of one character (Python `str.lower` on the
alphabets the script manipulates). -/
def charLower (c : Char) : Char :=
  if 'A' ≤ c && c ≤ 'Z' then Char.ofNat (c.toNat + 32) else c

/-- Python `s.lower()`. -/
def strLower (s : String) : String := String.mk (s.data.map charLower)

/-! ## URL pattern matchers (§4.1)

The script uses three conventions to recognise URLs:

* whole-content (`extract_urls_from_text`, lines 267-282),
* hash-terminated via the regex `(https?://[^#\s]+)(?=#)`
  (lines 504-509, also 315-324),
* trailing-line: last line of the text that starts with a scheme
  (lines 511-517, also 463-469).
-/

/-- `extract_urls_from_text`: the whole (stripped) text is a URL, or nothing. -/
def extractUrlsFromText (text : String) : List String :=
  let t := pyStrip text
  if strStartsWith t "http://" || strStartsWith t "https://" then [t] else []

/-- The literal `http://` of the regex scheme alternative. -/
def httpPat : List Char := ['h', 't', 't', 'p', ':', '/', '/']

/-- The literal `https://` of the regex scheme alternative. -/
def httpsPat : List Char := ['h', 't', 't', 'p', 's', ':', '/', '/']

/-- A character admitted by the regex class `[^#\s]`. -/
def urlChar (c : Char) : Bool := !(c == '#') && !(pySpace c)

/-- Match of `https?://` at the head of the text: returns the scheme and
the remainder.  On a given text at most one alternative applies. -/
def schemeSplit (s : List Char) : Option (List Char × List Char) :=
  if httpsPat.isPrefixOf s then some (httpsPat, s.drop 8)
  else if httpPat.isPrefixOf s then some (httpPat, s.drop 7)
  else none

/-- Attempted match of `(https?://[^#\s]+)(?=#)` anchored at the head of
the text: the greedy run of `[^#\s]` after the scheme must be nonempty and
must be immediately followed by a literal `#`.  Returns group 1. -/
def hashMatchAt (s : List Char) : Option (List Char) :=
  match schemeSplit s with
  | some (scheme, rest) =>
    let body := rest.takeWhile urlChar
    if body.length > 0 && (rest.drop body.length).head? == some '#' then
      some (scheme ++ body)
    else none
  | none => none

/-- `re.search` of `(https?://[^#\s]+)(?=#)`: try the anchored match at
each position from the left, returning the first success. -/
def findUrlHashAux : List Char → Option (List Char)
  | [] => none
  | c :: rest =>
    match hashMatchAt (c :: rest) with
    | some u => some u
    | none => findUrlHashAux rest

/-- Hash-terminated URL matcher on strings (lines 504-509 of the script). -/
def findUrlHash (s : String) : Option String :=
  (findUrlHashAux s.data).map String.mk

/-- One line qualifies as a trailing URL when, after stripping, it starts
with a scheme (line 515 of the script). -/
def isUrlLine (l : List Char) : Bool :=
  httpPat.isPrefixOf l || httpsPat.isPrefixOf l

/-- Fallback matcher (lines 511-517): split the stripped content into
lines, scan from the last line backwards, return the first stripped line
that starts with a scheme. -/
def findTrailingUrl (s : String) : Option String :=
  (((splitNl (pyStripL s.data)).reverse.map pyStripL).find? isUrlLine).map String.mk

/-! ## The background-color stripping regexes (lines 759-780)

`remove_background_color` rewrites the `style` attribute with
`re.sub(r'background-color\s*:\s*[^;]+;?', '', style)` followed by
`re.sub(r';\s*$', '', style)`.  Both patterns are matched
deterministically (no backtracking changes the outcome), so they are
modelled by direct scanners. -/

/-- The literal `background-color` of the stripping regex (16 characters,
matched case-sensitively by `re.sub`). -/
def bgPat : List Char :=
  ['b', 'a', 'c', 'k', 'g', 'r', 'o', 'u', 'n', 'd', '-', 'c', 'o', 'l', 'o', 'r']

/-- Attempted match of `background-color\s*:\s*[^;]+;?` anchored at the
head of the text.  Greedy matching of this pattern is deterministic: after
the literal and optional whitespace a `:` must follow, `\s*[^;]+` together
consume the maximal run of non-`;` characters (which must be nonempty),
and `;?` consumes a following `;` when present.  Returns the remainder of
the text after the match. -/
def bgMatch (s : List Char) : Option (List Char) :=
  if bgPat.isPrefixOf s then
    let r1 := (s.drop 16).dropWhile pySpace
    match r1 with
    | c :: r2 =>
      if c == ':' then
        let r3 := r2.dropWhile (fun d => !(d == ';'))
        if r3.length < r2.length then
          match r3 with
          | [] => some []
          | c2 :: r4 => if c2 == ';' then some r4 else some (c2 :: r4)
        else none
      else none
    | [] => none
  else none

/-- `re.sub(r'background-color\s*:\s*[^;]+;?', '', s)`: scan left to
right, replacing each non-overlapping match by nothing.  The fuel argument
(always instantiated with the length of the text) makes the recursion
structural; every step consumes at least one character, so the fuel never
runs out. -/
def subBgAux : Nat → List Char → List Char
  | 0, s => s
  | _ + 1, [] => []
  | fuel + 1, c :: rest =>
    match bgMatch (c :: rest) with
    | some s2 => subBgAux fuel s2
    | none => c :: subBgAux fuel rest

/-- `re.sub(r';\s*$', '', s)`: when the text ends with a `;` followed only
by whitespace, remove that `;` and the whitespace; otherwise leave the
text unchanged. -/
def stripTrailingSemi (l : List Char) : List Char :=
  match l.reverse.dropWhile pySpace with
  | c :: rest => if c == ';' then rest.reverse else l
  | [] => l

/-- The full style rewrite of `remove_background_color` (lines 763-766). -/
def subBgStyle (s : String) : String :=
  String.mk (stripTrailingSemi (subBgAux s.data.length s.data))

/-! ## The parsed HTML tree

BeautifulSoup's parsed document is modelled as a list of top-level nodes
over a tree of tagged elements and text nodes.  Tag equality in bs4
(`__eq__`) compares name, attributes and contents recursively; the manual
`beq` below implements exactly that structural equality. -/

inductive Node where
  | text (s : String)
  | elem (tag : String) (attrs : List (String × String)) (children : List Node)

mutual

def Node.beq : Node → Node → Bool
  | .text a, .text b => a == b
  | .elem t1 a1 c1, .elem t2 a2 c2 => t1 == t2 && a1 == a2 && Node.listBeq c1 c2
  | .text _, .elem _ _ _ => false
  | .elem _ _ _, .text _ => false

def Node.listBeq : List Node → List Node → Bool
  | [], [] => true
  | x :: xs, y :: ys => Node.beq x y && Node.listBeq xs ys
  | [], _ :: _ => false
  | _ :: _, [] => false

end

instance : BEq Node := ⟨Node.beq⟩

mutual

theorem Node.beq_refl (n : Node) : Node.beq n n = true := by
  cases n with
  | text s => simp [Node.beq]
  | elem t a c => simp [Node.beq, Node.listBeq_refl c]

theorem Node.listBeq_refl (l : List Node) : Node.listBeq l l = true := by
  cases l with
  | nil => rfl
  | cons h t => simp [Node.listBeq, Node.beq_refl h, Node.listBeq_refl t]

end

mutual

theorem Node.eq_of_beq {a b : Node} (h : Node.beq a b = true) : a = b := by
  cases a with
  | text s =>
    cases b with
    | text s2 => simp [Node.beq] at h; simp [h]
    | elem t2 a2 c2 => simp [Node.beq] at h
  | elem t1 a1 c1 =>
    cases b with
    | text s2 => simp [Node.beq] at h
    | elem t2 a2 c2 =>
      simp [Node.beq] at h
      obtain ⟨⟨h1, h2⟩, h3⟩ := h
      subst h1; subst h2
      rw [Node.listEq_of_beq h3]

theorem Node.listEq_of_beq {l m : List Node} (h : Node.listBeq l m = true) : l = m := by
  cases l with
  | nil =>
    cases m with
    | nil => rfl
    | cons y ys => simp [Node.listBeq] at h
  | cons x xs =>
    cases m with
    | nil => simp [Node.listBeq] at h
    | cons y ys =>
      simp [Node.listBeq] at h
      rw [Node.eq_of_beq h.1, Node.listEq_of_beq h.2]

end

instance : LawfulBEq Node where
  eq_of_beq := Node.eq_of_beq
  rfl := Node.beq_refl _

instance : DecidableEq Node := fun a b =>
  if h : Node.beq a b = true then .isTrue (Node.eq_of_beq h)
  else .isFalse (fun he => h (he ▸ Node.beq_refl a))

/-- Attribute lookup (`element.get(key)`). -/
def getAttr (attrs : List (String × String)) (k : String) : Option String :=
  (attrs.find? (fun p => p.1 == k)).map Prod.snd

/-- In-place attribute update (`element[key] = v`; the key is present, so
the dictionary keeps its insertion order). -/
def setAttr (attrs : List (String × String)) (k v : String) : List (String × String) :=
  attrs.map (fun p => if p.1 == k then (p.1, v) else p)

/-- Attribute deletion (`del element[key]`). -/
def delAttr (attrs : List (String × String)) (k : String) : List (String × String) :=
  attrs.filter (fun p => !(p.1 == k))

/-- `has_background_color` (lines 752-756): the element's `style`
attribute (default `''`), lower-cased, contains `background-color`. -/
def Node.hasBackgroundColor : Node → Bool
  | .text _ => false
  | .elem _ attrs _ =>
    containsStr (strLower ((getAttr attrs "style").getD "")) "background-color"

/-- The extraction condition of line 802: a highlighted element, or an
anchor with a non-empty `href`. -/
def Node.qualifies : Node → Bool
  | .text _ => false
  | .elem tag attrs children =>
    Node.hasBackgroundColor (.elem tag attrs children)
      || (tag == "a" && !((getAttr attrs "href").getD "" == ""))

mutual

/-- `remove_background_color` (lines 759-780): rewrite a non-empty `style`
attribute with the two regexes, delete it when the result strips to
nothing, and recurse into the tag children. -/
def Node.removeBg : Node → Node
  | .text s => .text s
  | .elem tag attrs children =>
    let attrs2 :=
      match getAttr attrs "style" with
      | some st =>
        if st == "" then attrs
        else
          let st2 := subBgStyle st
          if !(pyStrip st2 == "") then setAttr attrs "style" st2
          else delAttr attrs "style"
      | none => attrs
    .elem tag attrs2 (Node.listRemoveBg children)

def Node.listRemoveBg : List Node → List Node
  | [] => []
  | n :: ns => Node.removeBg n :: Node.listRemoveBg ns

end

/-- Attribute rendering used by `Node.toHtml`. -/
def renderAttrsStr : List (String × String) → String
  | [] => ""
  | (k, v) :: rest => " " ++ k ++ "=\"" ++ v ++ "\"" ++ renderAttrsStr rest

mutual

/-- Serialisation `str(element)` of bs4 for the fragments the extractor
copies: attributes in insertion order, children in order. -/
def Node.toHtml : Node → String
  | .text s => s
  | .elem tag attrs children =>
    "<" ++ tag ++ renderAttrsStr attrs ++ ">" ++ Node.listToHtml children ++ "</" ++ tag ++ ">"

def Node.listToHtml : List Node → String
  | [] => ""
  | n :: ns => Node.toHtml n ++ Node.listToHtml ns

end

/-! ## The highlight/link extractor (process_read_notes, lines 696-887) -/

/-- The block-level tags of `get_paragraph_context` (line 786). -/
def isBlockTag (t : String) : Bool :=
  t == "p" || t == "div" || t == "h1" || t == "h2" || t == "h3"
    || t == "h4" || t == "h5" || t == "h6"

mutual

/-- The document-order extraction pass (lines 794-822).  The script walks
`soup.find_all()` in document order, and when an element qualifies it
marks the whole subtree as processed, so an element is extracted exactly
when it qualifies and no ancestor was extracted; this is the top-down
recursion below.  `ctx` is the nearest strict block-level ancestor in the
original tree (`get_paragraph_context`, lines 783-788, `None` when there
is none), updated whenever the walk descends into a block element.  Each
extracted element is recorded as its deep copy with the background colors
removed (lines 811-822), paired with its paragraph context. -/
def collectExtract (ctx : Option Node) : Node → List (Node × Option Node)
  | .text _ => []
  | .elem tag attrs children =>
    if Node.qualifies (.elem tag attrs children) then
      [(Node.removeBg (.elem tag attrs children), ctx)]
    else
      listCollectExtract (if isBlockTag tag then some (.elem tag attrs children) else ctx) children

def listCollectExtract (ctx : Option Node) : List Node → List (Node × Option Node)
  | [] => []
  | n :: ns => collectExtract ctx n ++ listCollectExtract ctx ns

end

/-- The full extraction pass over a parsed document.  Top-level elements
have no block ancestor, so their context starts as `None`. -/
def extractAll (doc : List Node) : List (Node × Option Node) :=
  listCollectExtract none doc

mutual

/-- `soup.find_all()`: every tag element of a tree in document order. -/
def Node.allElems : Node → List Node
  | .text _ => []
  | .elem t a cs => Node.elem t a cs :: Node.listAllElems cs

def Node.listAllElems : List Node → List Node
  | [] => []
  | n :: ns => Node.allElems n ++ Node.listAllElems ns

end

/-- `soup.find_all()` over the parsed document. -/
def docElems (doc : List Node) : List Node := Node.listAllElems doc

/-- The mutable state of the grouping loop of lines 826-851:
the closed paragraphs, the elements of the open group, and the open
group's paragraph context (`current_paragraph_tag`). -/
structure GroupState where
  paragraphs : List String
  curElems : List Node
  curTag : Option Node

/-- Closing a group (lines 837-846 and 853-860): when the group is
nonempty, serialise its elements joined by single spaces; when the result
strips to something non-blank, wrap it in the context's tag when that tag
is `p` or `div`, and in `<p>` otherwise (headings and the missing-context
case alike). -/
def closeGroup (tag : Option Node) (elems : List Node) : Option String :=
  if elems.isEmpty then none
  else
    let content := joinStr " " (elems.map Node.toHtml)
    if pyStrip content == "" then none
    else
      match tag with
      | some (.elem t _ _) =>
        if t == "p" || t == "div" then
          some ("<" ++ t ++ ">" ++ pyStrip content ++ "</" ++ t ++ ">")
        else some ("<p>" ++ pyStrip content ++ "</p>")
      | _ => some ("<p>" ++ pyStrip content ++ "</p>")

/-- One iteration of the grouping loop (lines 831-851): when the item's
paragraph context differs from the open group's (bs4 `!=`, i.e. structural
inequality), close the open group and start a new one; then append the
element to the open group. -/
def groupStep (st : GroupState) (item : Node × Option Node) : GroupState :=
  let st1 :=
    if item.2 == st.curTag then st
    else
      { paragraphs := st.paragraphs ++ (closeGroup st.curTag st.curElems).toList,
        curElems := [], curTag := item.2 }
  { st1 with curElems := st1.curElems ++ [item.1] }

/-- The grouping loop plus the final close (lines 826-860): the list of
rendered output blocks, in order. -/
def extractParagraphs (doc : List Node) : List String :=
  let st := (extractAll doc).foldl groupStep ⟨[], [], none⟩
  st.paragraphs ++ (closeGroup st.curTag st.curElems).toList

/-- The extractor's overall contract `extract(htmlBody)` (§4.2): the new
body when anything was extracted and rendered, and `none` (leave the note
untouched) otherwise (lines 824-877). -/
def extract (doc : List Node) : Option String :=
  if (extractAll doc).isEmpty then none
  else
    let paragraphs := extractParagraphs doc
    if paragraphs.isEmpty then none
    else some (joinStr "\n" paragraphs)

/-- Specification-side description of the grouping (§4.2 step 4), read
directly from the spec text: iterate the sequence in extraction order with
an open run; while the paragraph context is unchanged, accumulate into the
open run; when it changes, close the run and open a new one; the last run
is closed after the loop. -/
def chunkRunsFrom (tag : Option Node) (cur : List Node) :
    List (Node × Option Node) → List (Option Node × List Node)
  | [] => [(tag, cur)]
  | (e, c) :: rest =>
    if c == tag then chunkRunsFrom tag (cur ++ [e]) rest
    else (tag, cur) :: chunkRunsFrom c [e] rest

/-- The maximal runs of equal paragraph context in the extracted
sequence, each with its context. -/
def chunkRuns : List (Node × Option Node) → List (Option Node × List Node)
  | [] => []
  | (e, c) :: rest => chunkRunsFrom c [e] rest

/-! ## The note store collaborator (§3, §6)

The ETAPI collaborator is modelled as explicit state: a list of note
records (summary fields plus the body held by `get_note_content` /
`update_note_content`) and the list of created attributes.  Search
results preserve store order. -/

structure Note where
  noteId : String
  title : String
  typ : String
  isProtected : Bool
  dateCreated : String
  body : String
deriving DecidableEq

structure Attr where
  noteId : String
  typ : String
  name : String
  value : String
  isInheritable : Bool
deriving DecidableEq

structure Store where
  notes : List Note
  attrs : List Attr
deriving DecidableEq

/-- `etapi.get_note` (also the summary lookup): first note with the id. -/
def getNote (s : Store) (id : String) : Option Note :=
  s.notes.find? (fun n => n.noteId == id)

/-- `etapi.get_note_content`. -/
def getContent (s : Store) (id : String) : String :=
  ((getNote s id).map Note.body).getD ""

/-- `etapi.update_note_content`. -/
def updateContent (s : Store) (id : String) (b : String) : Store :=
  { s with notes := s.notes.map (fun n => if n.noteId == id then { n with body := b } else n) }

/-- `etapi.delete_note`. -/
def deleteNote (s : Store) (id : String) : Store :=
  { s with notes := s.notes.filter (fun n => !(n.noteId == id)) }

/-- `etapi.create_attribute`. -/
def createAttr (s : Store) (a : Attr) : Store :=
  { s with attrs := s.attrs ++ [a] }

/-- `etapi.patch_note(id, title=t)`. -/
def patchTitle (s : Store) (id : String) (t : String) : Store :=
  { s with notes := s.notes.map (fun n => if n.noteId == id then { n with title := t } else n) }

/-! ## The duplicate-set merger (merge_lien_inclus_notes, lines 390-547) -/

/-- `get_notes_by_title_and_date` (lines 360-387): the store query
`note.title = "{title}" note.dateCreated >= TODAY-2` followed by the
same-calendar-day filter on `dateCreated[:10]`.  `cutoff` is the date
string the store resolves `TODAY-2` to; the query compares date strings
lexicographically, i.e. chronologically. -/
def getNotesByTitleAndDate (s : Store) (cutoff title dateStr : String) : List Note :=
  (s.notes.filter (fun n => n.title == title && strLe cutoff n.dateCreated)).filter
    (fun n => datePart n.dateCreated == dateStr)

/-- Stable insertion into a list sorted ascending by `dateCreated`
(equal keys keep their relative order). -/
def insertByDate (e : Note) : List Note → List Note
  | [] => [e]
  | x :: xs =>
    if strLe x.dateCreated e.dateCreated then x :: insertByDate e xs else e :: x :: xs

/-- `duplicate_notes.sort(key=dateCreated)` (line 441): Python's stable
sort, modelled by stable insertion sort. -/
def sortByDate : List Note → List Note
  | [] => []
  | x :: xs => insertByDate x (sortByDate xs)

/-- The per-duplicate step of the merge loop (lines 459-484): fetch the
duplicate's body, record its trailing-line URL in the (otherwise unused)
`links_found` list, append the stripped body to the accumulating merge
list when non-blank, then try to delete the duplicate; a deletion failure
is recorded in the error list and processing continues.  `deleteFails`
models which `delete_note` calls the store rejects. -/
def mergeDupStep (deleteFails : String → Bool) :
    Store × List String × List String × List String → Note →
      Store × List String × List String × List String
  | (store, acc, links, errs), dup =>
    let dupContent := getContent store dup.noteId
    let links2 :=
      match findTrailingUrl dupContent with
      | some u => links ++ [u]
      | none => links
    let acc2 := if pyStrip dupContent == "" then acc else acc ++ [pyStrip dupContent]
    if deleteFails dup.noteId then
      (store, acc2, links2, errs ++ ["Failed to delete duplicate note " ++ dup.noteId])
    else
      (deleteNote store dup.noteId, acc2, links2, errs)

/-- The counters of `merge_lien_inclus_notes`. -/
structure LienResults where
  processed : Nat
  merged : Nat
  titlesUpdated : Nat
  errors : List String
deriving DecidableEq

/-- Store plus counters, threaded through the per-note loop. -/
structure LienState where
  store : Store
  res : LienResults
deriving DecidableEq

/-- The retitle step run for every candidate (lines 494-537): re-fetch the
target's current body, look for the first hash-terminated URL, fall back
to the trailing-line scan, and when a URL was found create the `pageUrl`
label and, when the title resolver (newspaper3k, modelled by the
`resolveTitle` parameter) returns a title, rename the note. -/
def retitleStep (resolveTitle : String → Option String) (store : Store) (targetId : String)
    (res : LienResults) : Store × LienResults :=
  let current := getContent store targetId
  let pageUrl :=
    match findUrlHash current with
    | some u => some u
    | none => findTrailingUrl current
  match pageUrl with
  | none => (store, res)
  | some url =>
    let store1 := createAttr store ⟨targetId, "label", "pageUrl", url, false⟩
    match resolveTitle url with
    | none => (store1, res)
    | some t =>
      (patchTitle store1 targetId t, { res with titlesUpdated := res.titlesUpdated + 1 })

/-- The body of the per-candidate loop of `merge_lien_inclus_notes`
(lines 415-539).  Candidates whose stripped title does not start with
`Lien inclus` are skipped; a candidate that can no longer be fetched
(e.g. already deleted by an earlier merge) raises, which the per-note
handler records as an error.  With `≤ 1` same-day duplicates the target is
the candidate itself; otherwise the duplicates are sorted by creation
date, merged into the oldest and deleted, and the merged body is written
back.  In both cases the retitle step then runs on the target. -/
def processLienNote (deleteFails : String → Bool) (resolveTitle : String → Option String)
    (cutoff : String) (st : LienState) (note : Note) : LienState :=
  let title := pyStrip note.title
  if !(strStartsWith title "Lien inclus") then st
  else
    match getNote st.store note.noteId with
    | none =>
      { st with res := { st.res with errors := st.res.errors ++
          ["Error processing Lien inclus note " ++ note.title] } }
    | some details =>
      let day := datePart details.dateCreated
      let dups := getNotesByTitleAndDate st.store cutoff title day
      if dups.length ≤ 1 then
        let r1 := retitleStep resolveTitle st.store note.noteId st.res
        ⟨r1.1, { r1.2 with processed := r1.2.processed + 1 }⟩
      else
        match sortByDate dups with
        | [] => st
        | target :: rest =>
          let oldest := getContent st.store target.noteId
          let fr := rest.foldl (mergeDupStep deleteFails) (st.store, [], [], st.res.errors)
          let finalContent := joinStr "\n\n" (oldest :: fr.2.1)
          let store3 := updateContent fr.1 target.noteId finalContent
          let res2 := { st.res with errors := fr.2.2.2, merged := st.res.merged + 1 }
          let r3 := retitleStep resolveTitle store3 target.noteId res2
          ⟨r3.1, { r3.2 with processed := r3.2.processed + 1 }⟩

/-! ## The regular-link and read-note processors -/

/-- The record returned by `fetch_article_content` (lines 328-357);
`publishDate` carries the already-formatted date string. -/
structure ArticleData where
  title : String
  html : String
  authors : List String
  publishDate : Option String

/-- The per-URL body of the regular link-note loop (lines 621-682):
create the `pageUrl` label, the `authors` label when the article has
authors, the `date` label when it has a publish date, and replace the
note's content with the fetched article body.  A fetch failure yields
no article and leaves the note untouched. -/
def processUrlStep (fetchArticle : String → Option ArticleData) (noteId : String)
    (store : Store) (url : String) : Store :=
  match fetchArticle url with
  | none => store
  | some ad =>
    let s1 := createAttr store ⟨noteId, "label", "pageUrl", url, false⟩
    let s2 :=
      if ad.authors.isEmpty then s1
      else createAttr s1 ⟨noteId, "label", "authors", joinStr ", " ad.authors, false⟩
    let s3 :=
      match ad.publishDate with
      | some d => createAttr s2 ⟨noteId, "label", "date", d, false⟩
      | none => s2
    updateContent s3 noteId ad.html

/-- The per-note body of the regular link-note loop (lines 591-690):
protected notes and non-text notes are skipped; the note's content is
processed when it is, as a whole, a URL. -/
def processRegularLink (fetchArticle : String → Option ArticleData) (store : Store)
    (note : Note) : Store :=
  if note.isProtected then store
  else if !(note.typ == "text") then store
  else
    let content := getContent store note.noteId
    (extractUrlsFromText content).foldl (processUrlStep fetchArticle note.noteId) store

/-- `process_link_notes` (lines 550-692): split the input by the
`Lien inclus` title prefix; notes with the prefix go through the merge
logic (with no `isProtected` check), the rest through the URL-fetching
loop (which skips protected notes). -/
def processLinkNotes (deleteFails : String → Bool) (resolveTitle : String → Option String)
    (fetchArticle : String → Option ArticleData) (cutoff : String) (store : Store)
    (notes : List Note) : LienState :=
  let liens := notes.filter (fun n => strStartsWith (pyStrip n.title) "Lien inclus")
  let regulars := notes.filter (fun n => !(strStartsWith (pyStrip n.title) "Lien inclus"))
  let st1 := liens.foldl (processLienNote deleteFails resolveTitle cutoff) ⟨store, ⟨0, 0, 0, []⟩⟩
  ⟨regulars.foldl (processRegularLink fetchArticle) st1.store, st1.res⟩

/-- The per-note body of `process_read_notes` (lines 722-879): protected
notes and non-text notes are skipped; blank content is skipped; otherwise
the body is parsed (`parseHtml` models the BeautifulSoup collaborator) and
the extractor's result, when any, replaces the note's content. -/
def processReadNote (parseHtml : String → List Node) (store : Store) (note : Note) : Store :=
  if note.isProtected then store
  else if !(note.typ == "text") then store
  else
    let content := getContent store note.noteId
    if pyStrip content == "" then store
    else
      match extract (parseHtml content) with
      | none => store
      | some newBody => updateContent store note.noteId newBody

/-! ## Concrete fixtures used by witnesses and counterexamples -/

/-- First note of the §8 duplicate-merge scenario (created 08:00). -/
def lienN1 : Note :=
  ⟨"n1", "Lien inclus : X", "text", false, "2024-01-05 08:00", "A\nhttp://x"⟩

/-- Second note of the §8 scenario (created 12:00). -/
def lienN2 : Note :=
  ⟨"n2", "Lien inclus : X", "text", false, "2024-01-05 12:00", "B\nhttp://y"⟩

/-- Third note of the §8 scenario (created 18:00). -/
def lienN3 : Note :=
  ⟨"n3", "Lien inclus : X", "text", false, "2024-01-05 18:00", "C http://z#"⟩

/-- A protected clip note: protection is not checked on the merge path. -/
def protNote : Note :=
  ⟨"p1", "Lien inclus : Y", "text", true, "2024-01-05 09:00", "C http://z#"⟩

/-- Same-day duplicates three days before the run date. -/
def oldN1 : Note :=
  ⟨"o1", "Lien inclus : Z", "text", false, "2024-01-01 08:00", "old1"⟩

/-- Second same-day duplicate outside the `TODAY-2` window. -/
def oldN2 : Note :=
  ⟨"o2", "Lien inclus : Z", "text", false, "2024-01-01 12:00", "old2"⟩

/-- The highlighted `div` with an interleaved `p`: first and third
highlights share the `div` as nearest block ancestor, the middle one sits
in the nested `p`. -/
def c3Doc : List Node :=
  [Node.elem "div" []
    [Node.elem "span" [("style", "background-color: y;")] [Node.text "X"],
     Node.elem "p" [] [Node.elem "span" [("style", "background-color: y;")] [Node.text "Y"]],
     Node.elem "span" [("style", "background-color: y;")] [Node.text "Z"]]]

/-- A highlight whose `style` spells the property in upper case: it
qualifies for extraction (the check lower-cases) but the case-sensitive
stripping regex does not touch it. -/
def c4Doc : List Node :=
  [Node.elem "p" [] [Node.elem "span" [("style", "BACKGROUND-COLOR:red")] [Node.text "X"]]]

/-! ## Characterisation of the hash-terminated matcher (claim C5) -/

/-- Specification-side reading of §4.1 mode `hashTerminated`: at position
`i` of `t` stands a substring `u` matching `https?://[^#\s]+`, immediately
followed by a literal `#`. -/
def specHashMatchAt (t : List Char) (i : Nat) (u : List Char) : Prop :=
  (∃ b, (u = httpPat ++ b ∨ u = httpsPat ++ b) ∧ b ≠ [] ∧ ∀ c ∈ b, urlChar c = true) ∧
    (u ++ ['#']) <+: t.drop i

theorem takeWhile_append_all {p : Char → Bool} {b : List Char} {x : Char} (r : List Char)
    (hall : ∀ c ∈ b, p c = true) (hx : p x = false) :
    (b ++ x :: r).takeWhile p = b := by
  induction b with
  | nil => simp [List.takeWhile_cons, hx]
  | cons c cs ih =>
    have hc : p c = true := hall c (by simp)
    simp only [List.cons_append, List.takeWhile_cons, hc, if_true]
    rw [ih (fun d hd => hall d (by simp [hd]))]

theorem https_not_prefixOf_http (r : List Char) :
    httpsPat.isPrefixOf ('h' :: 't' :: 't' :: 'p' :: ':' :: r) = false := by
  rw [Bool.eq_false_iff]
  intro hp
  have h2 := List.isPrefixOf_iff_prefix.mp hp
  simp [httpsPat, List.cons_prefix_cons] at h2


theorem drop_length_takeWhile (p : Char → Bool) (l : List Char) :
    l.drop (l.takeWhile p).length = l.dropWhile p := by
  induction l with
  | nil => rfl
  | cons c cs ih =>
    by_cases h : p c
    · simp [List.takeWhile_cons, List.dropWhile_cons, h, ih]
    · simp [List.takeWhile_cons, List.dropWhile_cons, h]

theorem schemeSplit_eq (s scheme rest : List Char) (h : schemeSplit s = some (scheme, rest)) :
    s = scheme ++ rest ∧ (scheme = httpPat ∨ scheme = httpsPat) := by
  unfold schemeSplit at h
  by_cases h8 : httpsPat.isPrefixOf s
  · rw [if_pos h8] at h
    simp only [Option.some.injEq, Prod.mk.injEq] at h
    obtain ⟨h1, h2⟩ := h
    obtain ⟨t8, ht8⟩ := List.isPrefixOf_iff_prefix.mp h8
    have hd : s.drop 8 = t8 := by rw [← ht8]; exact List.drop_left httpsPat t8
    subst h1
    rw [← h2, hd, ← ht8]
    exact ⟨rfl, Or.inr rfl⟩
  · rw [if_neg h8] at h
    by_cases h7 : httpPat.isPrefixOf s
    · rw [if_pos h7] at h
      simp only [Option.some.injEq, Prod.mk.injEq] at h
      obtain ⟨h1, h2⟩ := h
      obtain ⟨t7, ht7⟩ := List.isPrefixOf_iff_prefix.mp h7
      have hd : s.drop 7 = t7 := by rw [← ht7]; exact List.drop_left httpPat t7
      subst h1
      rw [← h2, hd, ← ht7]
      exact ⟨rfl, Or.inl rfl⟩
    · rw [if_neg h7] at h
      exact absurd h (by simp)

theorem hashMatchAt_iff (s u : List Char) :
    hashMatchAt s = some u ↔ specHashMatchAt s 0 u := by
  constructor
  · intro h
    unfold hashMatchAt at h
    cases hs : schemeSplit s with
    | none => rw [hs] at h; exact absurd h (by simp)
    | some pair =>
      obtain ⟨scheme, rest⟩ := pair
      rw [hs] at h
      simp only [] at h
      obtain ⟨hsr, hschpat⟩ := schemeSplit_eq s scheme rest hs
      by_cases hcond :
          ((rest.takeWhile urlChar).length > 0 &&
            ((rest.drop (rest.takeWhile urlChar).length).head? == some '#')) = true
      · rw [if_pos hcond] at h
        simp only [Bool.and_eq_true, decide_eq_true_eq, beq_iff_eq] at hcond
        obtain ⟨hlen, hhead⟩ := hcond
        have hu : u = scheme ++ rest.takeWhile urlChar := by
          exact (Option.some.injEq _ _).mp h.symm
        rw [drop_length_takeWhile] at hhead
        obtain ⟨d, hd⟩ : ∃ d, rest.dropWhile urlChar = '#' :: d := by
          cases hdw : rest.dropWhile urlChar with
          | nil => rw [hdw] at hhead; exact absurd hhead (by simp)
          | cons x xs =>
            rw [hdw] at hhead
            simp only [List.head?_cons, Option.some.injEq] at hhead
            exact ⟨xs, by rw [hhead]⟩
        have hrest : rest = rest.takeWhile urlChar ++ '#' :: d := by
          conv_lhs => rw [← List.takeWhile_append_dropWhile urlChar rest]
          rw [hd]
        refine ⟨⟨rest.takeWhile urlChar, ?_, ?_, ?_⟩, ?_⟩
        · rcases hschpat with h1 | h1
          · exact Or.inl (by rw [hu, h1])
          · exact Or.inr (by rw [hu, h1])
        · exact List.length_pos.mp hlen
        · intro c hc; exact List.mem_takeWhile_imp hc
        · rw [List.drop_zero, hsr, hu]
          refine ⟨d, ?_⟩
          conv_lhs => rw [List.append_assoc]
          conv_rhs => rw [hrest]
          simp
      · rw [if_neg hcond] at h; exact absurd h (by simp)
  · intro hspec
    obtain ⟨⟨b, hscheme, hb, hall⟩, hpre⟩ := hspec
    rw [List.drop_zero] at hpre
    obtain ⟨t0, ht0⟩ := hpre
    have hurlhash : urlChar '#' = false := by decide
    have hassoc : ∀ sch : List Char, (sch ++ b ++ ['#']) ++ t0 = sch ++ (b ++ '#' :: t0) := by
      intro sch; simp
    rcases hscheme with h1 | h1
    · have hs : s = httpPat ++ (b ++ '#' :: t0) := by
        rw [← ht0, h1]; exact hassoc httpPat
      have hnotHttps : httpsPat.isPrefixOf s = false := by
        rw [hs]
        exact https_not_prefixOf_http _
      have hHttp : httpPat.isPrefixOf s = true := by
        rw [hs]
        exact List.isPrefixOf_iff_prefix.mpr (List.prefix_append _ _)
      have hdrop7 : s.drop 7 = b ++ '#' :: t0 := by
        rw [hs]; exact List.drop_left httpPat _
      have hsplit : schemeSplit s = some (httpPat, b ++ '#' :: t0) := by
        unfold schemeSplit
        rw [hnotHttps, hHttp]
        simp [hdrop7]
      unfold hashMatchAt
      rw [hsplit]
      simp only []
      rw [takeWhile_append_all t0 hall hurlhash]
      rw [List.drop_left b ('#' :: t0)]
      have hlen : b.length > 0 := List.length_pos.mpr hb
      simp [hlen, h1]
    · have hs : s = httpsPat ++ (b ++ '#' :: t0) := by
        rw [← ht0, h1]; exact hassoc httpsPat
      have hHttps : httpsPat.isPrefixOf s = true := by
        rw [hs]
        exact List.isPrefixOf_iff_prefix.mpr (List.prefix_append _ _)
      have hdrop8 : s.drop 8 = b ++ '#' :: t0 := by
        rw [hs]; exact List.drop_left httpsPat _
      have hsplit : schemeSplit s = some (httpsPat, b ++ '#' :: t0) := by
        unfold schemeSplit
        rw [hHttps]
        simp [hdrop8]
      unfold hashMatchAt
      rw [hsplit]
      simp only []
      rw [takeWhile_append_all t0 hall hurlhash]
      rw [List.drop_left b ('#' :: t0)]
      have hlen : b.length > 0 := List.length_pos.mpr hb
      simp [hlen, h1]

theorem findUrlHashAux_iff (t u : List Char) :
    findUrlHashAux t = some u ↔
      ∃ i, specHashMatchAt t i u ∧ ∀ j v, j < i → ¬ specHashMatchAt t j v := by
  induction t with
  | nil =>
    simp only [findUrlHashAux]
    constructor
    · intro h; exact absurd h (by simp)
    · rintro ⟨i, ⟨⟨b, _, _, _⟩, hpre⟩, _⟩
      rw [List.drop_nil] at hpre
      have := List.prefix_nil.mp hpre
      exact absurd this (by simp)
  | cons c rest ih =>
    cases hm : hashMatchAt (c :: rest) with
    | some w =>
      have hspec0 := (hashMatchAt_iff (c :: rest) w).mp hm
      simp only [findUrlHashAux, hm]
      constructor
      · intro h
        have hw : w = u := by simpa using h
        subst hw
        exact ⟨0, hspec0, fun j v hj => absurd hj (Nat.not_lt_zero j)⟩
      · rintro ⟨i, hspec, hmin⟩
        cases i with
        | zero =>
          have h2 := (hashMatchAt_iff (c :: rest) u).mpr hspec
          rw [hm] at h2
          exact h2
        | succ k =>
          exact absurd hspec0 (hmin 0 w (Nat.succ_pos k))
    | none =>
      simp only [findUrlHashAux, hm]
      rw [ih]
      constructor
      · rintro ⟨i, hspec, hmin⟩
        refine ⟨i + 1, ?_, ?_⟩
        · obtain ⟨hb, hpre⟩ := hspec
          exact ⟨hb, by rwa [List.drop_succ_cons]⟩
        · intro j v hj
          cases j with
          | zero =>
            intro hv
            have h2 := (hashMatchAt_iff (c :: rest) v).mpr hv
            rw [hm] at h2
            exact absurd h2 (by simp)
          | succ k =>
            intro hv
            obtain ⟨hb, hpre⟩ := hv
            rw [List.drop_succ_cons] at hpre
            exact hmin k v (Nat.lt_of_succ_lt_succ hj) ⟨hb, hpre⟩
      · rintro ⟨i, hspec, hmin⟩
        cases i with
        | zero =>
          have h2 := (hashMatchAt_iff (c :: rest) u).mpr hspec
          rw [hm] at h2
          exact absurd h2 (by simp)
        | succ k =>
          obtain ⟨hb, hpre⟩ := hspec
          rw [List.drop_succ_cons] at hpre
          refine ⟨k, ⟨hb, hpre⟩, ?_⟩
          intro j v hj hv
          obtain ⟨hbv, hprev⟩ := hv
          refine hmin (j + 1) v (Nat.succ_lt_succ hj) ⟨hbv, ?_⟩
          rwa [List.drop_succ_cons]

/-! ## The duplicate lookup and the search window (claim C7) -/

theorem charListLt_append (a b c : List Char) (h : charListLt a b = true) :
    charListLt a (b ++ c) = true := by
  induction a generalizing b with
  | nil =>
    cases b with
    | nil => exact absurd h (by simp [charListLt])
    | cons y ys => simp [charListLt]
  | cons x xs ih =>
    cases b with
    | nil => exact absurd h (by simp [charListLt])
    | cons y ys =>
      simp only [charListLt, List.cons_append] at h ⊢
      by_cases hxy : x < y
      · simp [hxy]
      · rw [if_neg hxy] at h ⊢
        by_cases hyx : y < x
        · rw [if_pos hyx] at h; exact absurd h (by simp)
        · rw [if_neg hyx] at h ⊢
          exact ih ys h

theorem charListLt_self_append (b c : List Char) (hc : c ≠ []) :
    charListLt b (b ++ c) = true := by
  induction b with
  | nil =>
    cases c with
    | nil => exact absurd rfl hc
    | cons y ys => simp [charListLt]
  | cons x xs ih =>
    simp only [charListLt, List.cons_append]
    rw [if_neg (lt_irrefl x), if_neg (lt_irrefl x)]
    exact ih

/-- Within the search window, lexicographic comparison against the cutoff
is implied by the same-day filter. -/
theorem strLe_of_datePart (cutoff dateStr d : String) (hle : strLe cutoff dateStr = true)
    (hday : datePart d = dateStr) : strLe cutoff d = true := by
  have hdata : d.data = dateStr.data ++ d.data.drop 10 := by
    have h1 : d.data.take 10 = dateStr.data := by
      have := congrArg String.data hday
      exact this
    conv_lhs => rw [← List.take_append_drop 10 d.data]
    rw [h1]
  rcases Bool.or_eq_true _ _ |>.mp hle with hlt | heq
  · unfold strLe
    rw [Bool.or_eq_true]
    refine Or.inl ?_
    unfold strLt at hlt ⊢
    rw [hdata]
    exact charListLt_append _ _ _ hlt
  · have hcd : cutoff = dateStr := eq_of_beq heq
    subst hcd
    cases hdrop : d.data.drop 10 with
    | nil =>
      have : d.data = cutoff.data := by rw [hdata, hdrop, List.append_nil]
      have hd : d = cutoff := String.ext this
      subst hd
      unfold strLe
      simp
    | cons y ys =>
      unfold strLe strLt
      rw [Bool.or_eq_true]
      refine Or.inl ?_
      rw [hdata, hdrop]
      exact charListLt_self_append _ _ (by simp)

/-- Inside the `TODAY-2` window the day filter alone determines the result
of `get_notes_by_title_and_date`: the query returns exactly the notes with
the queried (exact, stored) title and the candidate's creation day. -/
theorem getNotesByTitleAndDate_eq (s : Store) (cutoff title dateStr : String)
    (h : strLe cutoff dateStr = true) :
    getNotesByTitleAndDate s cutoff title dateStr =
      s.notes.filter (fun n => n.title == title && datePart n.dateCreated == dateStr) := by
  unfold getNotesByTitleAndDate
  rw [List.filter_filter]
  refine List.filter_congr ?_
  intro n _
  by_cases hday : datePart n.dateCreated == dateStr
  · have hle := strLe_of_datePart cutoff dateStr n.dateCreated h (eq_of_beq hday)
    rw [hday, hle]
    simp
  · rw [Bool.eq_false_iff.mpr hday]
    simp

/-! ## Store lemmas -/

theorem find?_filter_stable {α : Type} (p q : α → Bool) (l : List α)
    (h : ∀ a, q a = false → p a = false) :
    (l.filter q).find? p = l.find? p := by
  induction l with
  | nil => rfl
  | cons a rest ih =>
    cases hq : q a with
    | true =>
      rw [List.filter_cons_of_pos hq]
      cases hp : p a with
      | true => simp [List.find?_cons, hp]
      | false => simp [List.find?_cons, hp, ih]
    | false =>
      rw [List.filter_cons_of_neg (by simp [hq])]
      rw [ih]
      have hp : p a = false := h a hq
      simp [List.find?_cons, hp]

theorem find?_map_stable {α : Type} (f : α → α) (p : α → Bool) (l : List α)
    (h : ∀ a, p (f a) = p a) :
    (l.map f).find? p = (l.find? p).map f := by
  induction l with
  | nil => rfl
  | cons a rest ih =>
    cases hp : p a with
    | true => simp [List.find?_cons, h a, hp]
    | false => simp [List.find?_cons, h a, hp, ih]

theorem getNote_deleteNote_ne (s : Store) (i j : String) (h : ¬(j = i)) :
    getNote (deleteNote s i) j = getNote s j := by
  unfold getNote deleteNote
  refine find?_filter_stable _ _ _ ?_
  intro a ha
  have hai : (a.noteId == i) = true := by
    cases hx : a.noteId == i with
    | true => rfl
    | false => rw [hx] at ha; simp at ha
  have : a.noteId = i := eq_of_beq hai
  rw [this]
  exact beq_eq_false_iff_ne.mpr (fun he => h he.symm)

theorem getNote_deleteNote_self (s : Store) (i : String) :
    getNote (deleteNote s i) i = none := by
  unfold getNote deleteNote
  simp only []
  induction s.notes with
  | nil => rfl
  | cons a rest ih =>
    cases ha : a.noteId == i with
    | true =>
      rw [List.filter_cons_of_neg (by simp [ha])]
      exact ih
    | false =>
      rw [List.filter_cons_of_pos (by simp [ha])]
      rw [List.find?_cons, ha]
      exact ih

theorem getNote_updateContent (s : Store) (i j b : String) :
    getNote (updateContent s i b) j =
      (getNote s j).map (fun n => if n.noteId == i then { n with body := b } else n) := by
  unfold getNote updateContent
  refine find?_map_stable _ _ _ ?_
  intro a
  cases hx : a.noteId == i with
  | true => simp [hx]
  | false => simp [hx]

theorem getNote_patchTitle (s : Store) (i j t : String) :
    getNote (patchTitle s i t) j =
      (getNote s j).map (fun n => if n.noteId == i then { n with title := t } else n) := by
  unfold getNote patchTitle
  refine find?_map_stable _ _ _ ?_
  intro a
  cases hx : a.noteId == i with
  | true => simp [hx]
  | false => simp [hx]

theorem getContent_patchTitle (s : Store) (i j t : String) :
    getContent (patchTitle s i t) j = getContent s j := by
  unfold getContent
  rw [getNote_patchTitle]
  cases getNote s j with
  | none => rfl
  | some n =>
    cases hx : n.noteId == i with
    | true => simp [eq_of_beq hx]
    | false =>
      have hne : ¬(n.noteId = i) := by simpa using hx
      simp [hne]

theorem getNote_of_mem (notes : List Note) (attrs : List Attr) (g : Note)
    (hmem : g ∈ notes) (hnd : (notes.map Note.noteId).Nodup) :
    getNote ⟨notes, attrs⟩ g.noteId = some g := by
  induction notes with
  | nil => exact absurd hmem (by simp)
  | cons a rest ih =>
    rcases List.mem_cons.mp hmem with h1 | h1
    · subst h1
      unfold getNote
      simp [List.find?_cons]
    · have hne : ¬(a.noteId == g.noteId) = true := by
        intro hbe
        have heq : a.noteId = g.noteId := eq_of_beq hbe
        rw [List.map_cons] at hnd
        have := (List.nodup_cons.mp hnd).1
        exact this (heq ▸ List.mem_map_of_mem Note.noteId h1)
      unfold getNote at ih ⊢
      simp only [List.find?_cons]
      rw [Bool.eq_false_iff.mpr hne]
      exact ih h1 (by rw [List.map_cons] at hnd; exact (List.nodup_cons.mp hnd).2)

/-! ## The merge loop (claims C1, C8) -/

/-- The error message recorded for a failed duplicate deletion. -/
def delErrMsg (id : String) : String := "Failed to delete duplicate note " ++ id

theorem mergeDupStep_fail (df : String → Bool) (store : Store) (acc links errs : List String)
    (d : Note) (hd : getNote store d.noteId = some d) (hdf : df d.noteId = true) :
    mergeDupStep df (store, acc, links, errs) d =
      (store,
       (if pyStrip d.body == "" then acc else acc ++ [pyStrip d.body]),
       (match findTrailingUrl d.body with | some u => links ++ [u] | none => links),
       errs ++ [delErrMsg d.noteId]) := by
  have hc : getContent store d.noteId = d.body := by
    unfold getContent; rw [hd]; rfl
  simp only [mergeDupStep, hc, hdf]
  simp [delErrMsg]

theorem mergeDupStep_ok (df : String → Bool) (store : Store) (acc links errs : List String)
    (d : Note) (hd : getNote store d.noteId = some d) (hdf : df d.noteId = false) :
    mergeDupStep df (store, acc, links, errs) d =
      (deleteNote store d.noteId,
       (if pyStrip d.body == "" then acc else acc ++ [pyStrip d.body]),
       (match findTrailingUrl d.body with | some u => links ++ [u] | none => links),
       errs) := by
  have hc : getContent store d.noteId = d.body := by
    unfold getContent; rw [hd]; rfl
  simp only [mergeDupStep, hc, hdf]
  simp

theorem mergeFold (df : String → Bool) (ds : List Note) :
    ∀ (store : Store) (acc links errs : List String),
      (∀ d ∈ ds, getNote store d.noteId = some d) →
      ((ds.map Note.noteId).Nodup) →
      (ds.foldl (mergeDupStep df) (store, acc, links, errs)).2.1 =
          acc ++ (ds.map (fun d => pyStrip d.body)).filter (fun s => !(s == "")) ∧
      (ds.foldl (mergeDupStep df) (store, acc, links, errs)).2.2.2 =
          errs ++ (ds.filter (fun d => df d.noteId)).map (fun d => delErrMsg d.noteId) ∧
      (ds.foldl (mergeDupStep df) (store, acc, links, errs)).1.attrs = store.attrs ∧
      (∀ j, (∀ d ∈ ds, ¬(d.noteId = j)) →
        getNote (ds.foldl (mergeDupStep df) (store, acc, links, errs)).1 j = getNote store j) ∧
      (∀ d ∈ ds, df d.noteId = false →
        getNote (ds.foldl (mergeDupStep df) (store, acc, links, errs)).1 d.noteId = none) ∧
      (∀ d ∈ ds, df d.noteId = true →
        getNote (ds.foldl (mergeDupStep df) (store, acc, links, errs)).1 d.noteId = some d) := by
  induction ds with
  | nil =>
    intro store acc links errs _ _
    refine ⟨by simp, by simp, rfl, fun j _ => rfl, fun d hd => absurd hd (by simp),
      fun d hd => absurd hd (by simp)⟩
  | cons d rest ih =>
    intro store acc links errs hmem hnd
    have hd0 : getNote store d.noteId = some d := hmem d (by simp)
    have hndrest : (rest.map Note.noteId).Nodup := by
      rw [List.map_cons] at hnd; exact (List.nodup_cons.mp hnd).2
    have hdnotin : d.noteId ∉ rest.map Note.noteId := by
      rw [List.map_cons] at hnd; exact (List.nodup_cons.mp hnd).1
    have hne_rest : ∀ d2 ∈ rest, ¬(d2.noteId = d.noteId) := by
      intro d2 h2 heq
      exact hdnotin (heq ▸ List.mem_map_of_mem Note.noteId h2)
    simp only [List.foldl_cons]
    cases hdf : df d.noteId with
    | true =>
      rw [mergeDupStep_fail df store acc links errs d hd0 hdf]
      have hmem2 : ∀ d2 ∈ rest, getNote store d2.noteId = some d2 :=
        fun d2 h2 => hmem d2 (by simp [h2])
      obtain ⟨ihacc, iherr, ihattrs, ihsame, ihnone, ihsome⟩ :=
        ih store (if pyStrip d.body == "" then acc else acc ++ [pyStrip d.body])
          (match findTrailingUrl d.body with | some u => links ++ [u] | none => links)
          (errs ++ [delErrMsg d.noteId]) hmem2 hndrest
      refine ⟨?_, ?_, ihattrs, ?_, ?_, ?_⟩
      · rw [ihacc]
        cases hb : pyStrip d.body == "" with
        | true =>
          rw [List.map_cons, List.filter_cons_of_neg (by simp [eq_of_beq hb])]
          simp
        | false =>
          rw [List.map_cons, List.filter_cons_of_pos (by simp [hb])]
          simp
      · rw [iherr]
        rw [List.filter_cons_of_pos (by simp [hdf]), List.map_cons]
        simp
      · intro j hj
        rw [ihsame j (fun d2 h2 => hj d2 (by simp [h2]))]
      · intro d2 h2 hdf2
        rcases List.mem_cons.mp h2 with h3 | h3
        · subst h3; rw [hdf2] at hdf; exact absurd hdf (by simp)
        · exact ihnone d2 h3 hdf2
      · intro d2 h2 hdf2
        rcases List.mem_cons.mp h2 with h3 | h3
        · subst h3
          rw [ihsame d2.noteId hne_rest]
          exact hd0
        · exact ihsome d2 h3 hdf2
    | false =>
      rw [mergeDupStep_ok df store acc links errs d hd0 hdf]
      have hmem2 : ∀ d2 ∈ rest, getNote (deleteNote store d.noteId) d2.noteId = some d2 := by
        intro d2 h2
        rw [getNote_deleteNote_ne store d.noteId d2.noteId (hne_rest d2 h2)]
        exact hmem d2 (by simp [h2])
      obtain ⟨ihacc, iherr, ihattrs, ihsame, ihnone, ihsome⟩ :=
        ih (deleteNote store d.noteId)
          (if pyStrip d.body == "" then acc else acc ++ [pyStrip d.body])
          (match findTrailingUrl d.body with | some u => links ++ [u] | none => links)
          errs hmem2 hndrest
      refine ⟨?_, ?_, ?_, ?_, ?_, ?_⟩
      · rw [ihacc]
        cases hb : pyStrip d.body == "" with
        | true =>
          rw [List.map_cons, List.filter_cons_of_neg (by simp [eq_of_beq hb])]
          simp
        | false =>
          rw [List.map_cons, List.filter_cons_of_pos (by simp [hb])]
          simp
      · rw [iherr]
        rw [List.filter_cons_of_neg (by simp [hdf])]
      · rw [ihattrs]
        rfl
      · intro j hj
        rw [ihsame j (fun d2 h2 => hj d2 (by simp [h2]))]
        exact getNote_deleteNote_ne store d.noteId j
          (fun he => hj d (by simp) he.symm)
      · intro d2 h2 hdf2
        rcases List.mem_cons.mp h2 with h3 | h3
        · subst h3
          rw [ihsame d2.noteId hne_rest]
          exact getNote_deleteNote_self store d2.noteId
        · exact ihnone d2 h3 hdf2
      · intro d2 h2 hdf2
        rcases List.mem_cons.mp h2 with h3 | h3
        · subst h3; rw [hdf2] at hdf; exact absurd hdf (by simp)
        · exact ihsome d2 h3 hdf2

theorem charListLt_asymm (a : List Char) : ∀ b, charListLt a b = true → charListLt b a = false := by
  induction a with
  | nil =>
    intro b h
    cases b with
    | nil => exact absurd h (by simp [charListLt])
    | cons y ys => simp [charListLt]
  | cons x xs ih =>
    intro b h
    cases b with
    | nil => exact absurd h (by simp [charListLt])
    | cons y ys =>
      simp only [charListLt] at h ⊢
      by_cases hxy : x < y
      · rw [if_neg (lt_asymm hxy), if_pos hxy]
      · rw [if_neg hxy] at h
        by_cases hyx : y < x
        · rw [if_pos hyx] at h; exact absurd h (by simp)
        · rw [if_neg hyx] at h
          rw [if_neg hyx, if_neg hxy]
          exact ih ys h

theorem charListLt_ne (a : List Char) : ∀ b, charListLt a b = true → a ≠ b := by
  induction a with
  | nil =>
    intro b h
    cases b with
    | nil => exact absurd h (by simp [charListLt])
    | cons y ys => simp
  | cons x xs ih =>
    intro b h
    cases b with
    | nil => exact absurd h (by simp [charListLt])
    | cons y ys =>
      simp only [charListLt] at h
      by_cases hxy : x < y
      · intro he
        injection he with h1 h2
        exact absurd (h1 ▸ hxy) (lt_irrefl y)
      · rw [if_neg hxy] at h
        by_cases hyx : y < x
        · rw [if_pos hyx] at h; exact absurd h (by simp)
        · rw [if_neg hyx] at h
          intro he
          injection he with h1 h2
          exact (ih ys h) h2

/-- A list already strictly ascending by creation date is left unchanged
by the stable sort of line 441. -/
theorem sortByDate_sorted (gs : List Note)
    (hchain : List.Chain' (fun a b => strLt a.dateCreated b.dateCreated = true) gs) :
    sortByDate gs = gs := by
  induction gs with
  | nil => rfl
  | cons x xs ih =>
    have htail := hchain.tail
    simp only [sortByDate]
    rw [ih htail]
    cases xs with
    | nil => rfl
    | cons y ys =>
      have hxy : strLt x.dateCreated y.dateCreated = true := (List.chain'_cons.mp hchain).1
      have h1 : strLt y.dateCreated x.dateCreated = false := by
        unfold strLt at hxy ⊢
        exact charListLt_asymm _ _ hxy
      have h2 : (y.dateCreated == x.dateCreated) = false := by
        have hne : x.dateCreated.data ≠ y.dateCreated.data := charListLt_ne _ _ hxy
      -- the dates differ, so the bailout comparison is false
        have hne2 : ¬(y.dateCreated = x.dateCreated) := fun he => hne (congrArg String.data he.symm)
        exact beq_eq_false_iff_ne.mpr hne2
      have hle : strLe y.dateCreated x.dateCreated = false := by
        unfold strLe
        rw [h1, h2]
        rfl
      simp only [insertByDate, hle]
      simp

theorem getNote_createAttr (s : Store) (a : Attr) (j : String) :
    getNote (createAttr s a) j = getNote s j := rfl

theorem attrs_updateContent (s : Store) (i b : String) :
    (updateContent s i b).attrs = s.attrs := rfl

theorem attrs_patchTitle (s : Store) (i t : String) :
    (patchTitle s i t).attrs = s.attrs := rfl

theorem attrs_createAttr (s : Store) (a : Attr) :
    (createAttr s a).attrs = s.attrs ++ [a] := rfl

/-- C1: duplicate merge — for a group of n > 1 notes with the same
(`Lien inclus`) title and the same creation day, listed in ascending
`createdAt` order, processing any member merges into the earliest note:
its final body is its original body followed by each duplicate's stripped
non-empty body in ascending `createdAt` order joined by one blank line,
every other member is deleted from the store, and the `pageUrl` label
subsequently derived from the merged body is the first hash-terminated
URL of that body (which therefore wins over any trailing-line URL from
the earlier-merged bodies). -/
theorem c1_merge_general
    (g0 : Note) (gtail : List Note) (cand : Note) (cutoff u : String)
    (attrs0 : List Attr) (res0 : LienResults) (resolveTitle : String → Option String)
    (hcand : cand ∈ g0 :: gtail)
    (htail : gtail ≠ [])
    (hnd : ((g0 :: gtail).map Note.noteId).Nodup)
    (hstart : strStartsWith (pyStrip cand.title) "Lien inclus" = true)
    (htitle : ∀ g ∈ g0 :: gtail, g.title = pyStrip cand.title)
    (hday : ∀ g ∈ g0 :: gtail, datePart g.dateCreated = datePart cand.dateCreated)
    (hcut : strLe cutoff (datePart cand.dateCreated) = true)
    (hchain : List.Chain' (fun a b => strLt a.dateCreated b.dateCreated = true) (g0 :: gtail))
    (hhash : findUrlHash (joinStr "\n\n"
      (g0.body :: (gtail.map (fun d => pyStrip d.body)).filter (fun s => !(s == "")))) = some u) :
    getContent (processLienNote (fun _ => false) resolveTitle cutoff
        ⟨⟨g0 :: gtail, attrs0⟩, res0⟩ cand).store g0.noteId =
      joinStr "\n\n"
        (g0.body :: (gtail.map (fun d => pyStrip d.body)).filter (fun s => !(s == ""))) ∧
    (∀ d ∈ gtail, getNote (processLienNote (fun _ => false) resolveTitle cutoff
        ⟨⟨g0 :: gtail, attrs0⟩, res0⟩ cand).store d.noteId = none) ∧
    (processLienNote (fun _ => false) resolveTitle cutoff
        ⟨⟨g0 :: gtail, attrs0⟩, res0⟩ cand).store.attrs =
      attrs0 ++ [⟨g0.noteId, "label", "pageUrl", u, false⟩] := by
  have hget : getNote ⟨g0 :: gtail, attrs0⟩ cand.noteId = some cand :=
    getNote_of_mem _ _ _ hcand hnd
  have hdups : getNotesByTitleAndDate ⟨g0 :: gtail, attrs0⟩ cutoff (pyStrip cand.title)
      (datePart cand.dateCreated) = g0 :: gtail := by
    rw [getNotesByTitleAndDate_eq _ _ _ _ hcut]
    refine List.filter_eq_self.mpr ?_
    intro g hg
    rw [htitle g hg, hday g hg]
    simp
  have hlen : ¬((g0 :: gtail).length ≤ 1) := by
    have hpos : 0 < gtail.length := List.length_pos.mpr htail
    simp only [List.length_cons]
    omega
  have hsort : sortByDate (g0 :: gtail) = g0 :: gtail := sortByDate_sorted _ hchain
  have hmemtail : ∀ d ∈ gtail, getNote ⟨g0 :: gtail, attrs0⟩ d.noteId = some d :=
    fun d hd => getNote_of_mem _ _ _ (by simp [hd]) hnd
  have hndtail : (gtail.map Note.noteId).Nodup := by
    rw [List.map_cons] at hnd; exact (List.nodup_cons.mp hnd).2
  have hne0 : ∀ d ∈ gtail, ¬(d.noteId = g0.noteId) := by
    rw [List.map_cons] at hnd
    intro d hd he
    exact (List.nodup_cons.mp hnd).1 (he ▸ List.mem_map_of_mem Note.noteId hd)
  obtain ⟨hacc, herr, hattrs, hsame, hnone, _⟩ :=
    mergeFold (fun _ => false) gtail ⟨g0 :: gtail, attrs0⟩ [] [] res0.errors hmemtail hndtail
  have hold : getContent ⟨g0 :: gtail, attrs0⟩ g0.noteId = g0.body := by
    unfold getContent
    rw [getNote_of_mem _ _ _ (by simp) hnd]
    rfl
  have hg0f : getNote (gtail.foldl (mergeDupStep (fun _ => false))
      (⟨g0 :: gtail, attrs0⟩, [], [], res0.errors)).1 g0.noteId = some g0 := by
    rw [hsame g0.noteId hne0]
    exact getNote_of_mem _ _ _ (by simp) hnd
  simp only [processLienNote, hstart, Bool.not_true, Bool.false_eq_true, if_false, hget, hdups,
    if_neg hlen, hsort, hold, hacc, List.nil_append]
  have hcur : ∀ b : String,
      getContent (updateContent (gtail.foldl (mergeDupStep (fun _ => false))
        (⟨g0 :: gtail, attrs0⟩, [], [], res0.errors)).1 g0.noteId b) g0.noteId = b := by
    intro b
    unfold getContent
    rw [getNote_updateContent, hg0f]
    simp
  simp only [retitleStep, hcur, hhash]
  cases hrt : resolveTitle u with
  | none =>
    refine ⟨hcur _, ?_, ?_⟩
    · intro d hd
      rw [getNote_createAttr, getNote_updateContent, hnone d hd rfl]
      rfl
    · rw [attrs_createAttr, attrs_updateContent, hattrs]
  | some t =>
    refine ⟨?_, ?_, ?_⟩
    · rw [getContent_patchTitle]
      exact hcur _
    · intro d hd
      rw [getNote_patchTitle, getNote_createAttr, getNote_updateContent, hnone d hd rfl]
      rfl
    · rw [attrs_patchTitle, attrs_createAttr, attrs_updateContent, hattrs]

theorem getContent_createAttr (s : Store) (a : Attr) (j : String) :
    getContent (createAttr s a) j = getContent s j := rfl

theorem retitleStep_getContent (rt : String → Option String) (store : Store)
    (tid : String) (res : LienResults) (j : String) :
    getContent (retitleStep rt store tid res).1 j = getContent store j := by
  simp only [retitleStep]
  cases hp : (match findUrlHash (getContent store tid) with
    | some u => some u
    | none => findTrailingUrl (getContent store tid)) with
  | none => rfl
  | some url =>
    simp only []
    cases rt url with
    | none =>
      simp only []
      exact getContent_createAttr _ _ _
    | some t =>
      simp only []
      rw [getContent_patchTitle]
      exact getContent_createAttr _ _ _

theorem retitleStep_getNote_none (rt : String → Option String) (store : Store)
    (tid : String) (res : LienResults) (j : String) (h : getNote store j = none) :
    getNote (retitleStep rt store tid res).1 j = none := by
  simp only [retitleStep]
  cases hp : (match findUrlHash (getContent store tid) with
    | some u => some u
    | none => findTrailingUrl (getContent store tid)) with
  | none => exact h
  | some url =>
    simp only []
    cases rt url with
    | none =>
      simp only []
      rw [getNote_createAttr]
      exact h
    | some t =>
      simp only []
      rw [getNote_patchTitle, getNote_createAttr, h]
      rfl

theorem retitleStep_errors (rt : String → Option String) (store : Store)
    (tid : String) (res : LienResults) :
    (retitleStep rt store tid res).2.errors = res.errors := by
  simp only [retitleStep]
  cases hp : (match findUrlHash (getContent store tid) with
    | some u => some u
    | none => findTrailingUrl (getContent store tid)) with
  | none => rfl
  | some url =>
    simp only []
    cases rt url with
    | none => rfl
    | some t => rfl

theorem filter_noteId_nodup (gtail : List Note) (f : Note) (hf : f ∈ gtail)
    (hnd : (gtail.map Note.noteId).Nodup) :
    gtail.filter (fun d => d.noteId == f.noteId) = [f] := by
  induction gtail with
  | nil => exact absurd hf (by simp)
  | cons a rest ih =>
    have hndrest : (rest.map Note.noteId).Nodup := by
      rw [List.map_cons] at hnd; exact (List.nodup_cons.mp hnd).2
    have hanotin : a.noteId ∉ rest.map Note.noteId := by
      rw [List.map_cons] at hnd; exact (List.nodup_cons.mp hnd).1
    rcases List.mem_cons.mp hf with h1 | h1
    · subst h1
      rw [List.filter_cons_of_pos (by simp)]
      have hrest : rest.filter (fun d => d.noteId == f.noteId) = [] := by
        rw [List.filter_eq_nil_iff]
        intro d hd hbe
        exact hanotin ((eq_of_beq hbe) ▸ List.mem_map_of_mem Note.noteId hd)
      rw [hrest]
    · have hne : (a.noteId == f.noteId) = false := by
        refine beq_eq_false_iff_ne.mpr ?_
        intro he
        exact hanotin (he ▸ List.mem_map_of_mem Note.noteId h1)
      rw [List.filter_cons_of_neg (by simp [hne])]
      exact ih h1 hndrest

/-- C8: error isolation in the merger — when deleting the duplicate `f`
fails, that failure is the only entry in the result's error list, the
remaining duplicates are still deleted, and the merge target is still
updated with the concatenation of all duplicates' content, including the
body of the duplicate whose deletion failed. -/
theorem c8_error_isolation_general
    (g0 : Note) (gtail : List Note) (cand f : Note) (cutoff : String)
    (attrs0 : List Attr) (p0 m0 t0 : Nat) (resolveTitle : String → Option String)
    (hf : f ∈ gtail)
    (hcand : cand ∈ g0 :: gtail)
    (hnd : ((g0 :: gtail).map Note.noteId).Nodup)
    (hstart : strStartsWith (pyStrip cand.title) "Lien inclus" = true)
    (htitle : ∀ g ∈ g0 :: gtail, g.title = pyStrip cand.title)
    (hday : ∀ g ∈ g0 :: gtail, datePart g.dateCreated = datePart cand.dateCreated)
    (hcut : strLe cutoff (datePart cand.dateCreated) = true)
    (hchain : List.Chain' (fun a b => strLt a.dateCreated b.dateCreated = true) (g0 :: gtail)) :
    (processLienNote (fun id => id == f.noteId) resolveTitle cutoff
        ⟨⟨g0 :: gtail, attrs0⟩, ⟨p0, m0, t0, []⟩⟩ cand).res.errors = [delErrMsg f.noteId] ∧
    getContent (processLienNote (fun id => id == f.noteId) resolveTitle cutoff
        ⟨⟨g0 :: gtail, attrs0⟩, ⟨p0, m0, t0, []⟩⟩ cand).store g0.noteId =
      joinStr "\n\n"
        (g0.body :: (gtail.map (fun d => pyStrip d.body)).filter (fun s => !(s == ""))) ∧
    (∀ d ∈ gtail, ¬(d.noteId = f.noteId) →
      getNote (processLienNote (fun id => id == f.noteId) resolveTitle cutoff
        ⟨⟨g0 :: gtail, attrs0⟩, ⟨p0, m0, t0, []⟩⟩ cand).store d.noteId = none) := by
  have htail : gtail ≠ [] := List.ne_nil_of_mem hf
  have hget : getNote ⟨g0 :: gtail, attrs0⟩ cand.noteId = some cand :=
    getNote_of_mem _ _ _ hcand hnd
  have hdups : getNotesByTitleAndDate ⟨g0 :: gtail, attrs0⟩ cutoff (pyStrip cand.title)
      (datePart cand.dateCreated) = g0 :: gtail := by
    rw [getNotesByTitleAndDate_eq _ _ _ _ hcut]
    refine List.filter_eq_self.mpr ?_
    intro g hg
    rw [htitle g hg, hday g hg]
    simp
  have hlen : ¬((g0 :: gtail).length ≤ 1) := by
    have hpos : 0 < gtail.length := List.length_pos.mpr htail
    simp only [List.length_cons]
    omega
  have hsort : sortByDate (g0 :: gtail) = g0 :: gtail := sortByDate_sorted _ hchain
  have hmemtail : ∀ d ∈ gtail, getNote ⟨g0 :: gtail, attrs0⟩ d.noteId = some d :=
    fun d hd => getNote_of_mem _ _ _ (by simp [hd]) hnd
  have hndtail : (gtail.map Note.noteId).Nodup := by
    rw [List.map_cons] at hnd; exact (List.nodup_cons.mp hnd).2
  have hne0 : ∀ d ∈ gtail, ¬(d.noteId = g0.noteId) := by
    rw [List.map_cons] at hnd
    intro d hd he
    exact (List.nodup_cons.mp hnd).1 (he ▸ List.mem_map_of_mem Note.noteId hd)
  obtain ⟨hacc, herr, hattrs, hsame, hnone, hsome⟩ :=
    mergeFold (fun id => id == f.noteId) gtail ⟨g0 :: gtail, attrs0⟩ [] [] [] hmemtail hndtail
  have hfil : gtail.filter (fun d => d.noteId == f.noteId) = [f] :=
    filter_noteId_nodup gtail f hf hndtail
  have hold : getContent ⟨g0 :: gtail, attrs0⟩ g0.noteId = g0.body := by
    unfold getContent
    rw [getNote_of_mem _ _ _ (by simp) hnd]
    rfl
  have hg0f : getNote (gtail.foldl (mergeDupStep (fun id => id == f.noteId))
      (⟨g0 :: gtail, attrs0⟩, [], [], [])).1 g0.noteId = some g0 := by
    rw [hsame g0.noteId hne0]
    exact getNote_of_mem _ _ _ (by simp) hnd
  simp only [processLienNote, hstart, Bool.not_true, Bool.false_eq_true, if_false, hget, hdups,
    if_neg hlen, hsort, hold, List.nil_append]
  refine ⟨?_, ?_, ?_⟩
  · simp only [retitleStep_errors, herr, hfil, List.map_cons, List.map_nil, List.nil_append]
  · rw [retitleStep_getContent]
    unfold getContent
    rw [getNote_updateContent, hg0f, hacc]
    simp
  · intro d hd hne
    refine retitleStep_getNote_none _ _ _ _ _ ?_
    rw [getNote_updateContent, hnone d hd (beq_eq_false_iff_ne.mpr hne)]
    rfl

theorem retitleStep_processed (rt : String → Option String) (store : Store)
    (tid : String) (res : LienResults) :
    (retitleStep rt store tid res).2.processed = res.processed := by
  simp only [retitleStep]
  cases hp : (match findUrlHash (getContent store tid) with
    | some u => some u
    | none => findTrailingUrl (getContent store tid)) with
  | none => rfl
  | some url =>
    simp only []
    cases rt url with
    | none => rfl
    | some t => rfl

/-- C6: the retitle step always runs with the fixed URL-search ordering —
for a candidate with at most one same-day duplicate the merge is skipped
but the note is still processed: the candidate's current body is searched
with hash-terminated matching first, the trailing-line scan is used only
when that yields nothing, and when a URL is found the `pageUrl` label is
created and the note renamed to the resolver's title. -/
theorem c6_retitle_general
    (cand : Note) (cutoff : String) (store : Store) (res0 : LienResults)
    (resolveTitle : String → Option String)
    (hget : getNote store cand.noteId = some cand)
    (hstart : strStartsWith (pyStrip cand.title) "Lien inclus" = true)
    (hdups : (getNotesByTitleAndDate store cutoff (pyStrip cand.title)
        (datePart cand.dateCreated)).length ≤ 1) :
    (processLienNote (fun _ => false) resolveTitle cutoff ⟨store, res0⟩ cand).res.processed =
        res0.processed + 1 ∧
    (∀ u t, findUrlHash cand.body = some u → resolveTitle u = some t →
      (processLienNote (fun _ => false) resolveTitle cutoff ⟨store, res0⟩ cand).store =
        patchTitle (createAttr store ⟨cand.noteId, "label", "pageUrl", u, false⟩)
          cand.noteId t) ∧
    (∀ u t, findUrlHash cand.body = none → findTrailingUrl cand.body = some u →
      resolveTitle u = some t →
      (processLienNote (fun _ => false) resolveTitle cutoff ⟨store, res0⟩ cand).store =
        patchTitle (createAttr store ⟨cand.noteId, "label", "pageUrl", u, false⟩)
          cand.noteId t) ∧
    (findUrlHash cand.body = none → findTrailingUrl cand.body = none →
      (processLienNote (fun _ => false) resolveTitle cutoff ⟨store, res0⟩ cand).store = store) := by
  have hbody : getContent store cand.noteId = cand.body := by
    unfold getContent
    rw [hget]
    rfl
  simp only [processLienNote, hstart, Bool.not_true, Bool.false_eq_true, if_false, hget,
    if_pos hdups]
  refine ⟨?_, ?_, ?_, ?_⟩
  · simp only [retitleStep_processed]
  · intro u t hu ht
    simp only [retitleStep, hbody, hu, ht]
  · intro u t hh hu ht
    simp only [retitleStep, hbody, hh, hu, ht]
  · intro hh hu
    simp only [retitleStep, hbody, hh, hu]

/-! ## Protected notes (claim C2) and empty extraction (claim C9) -/

mutual

theorem collectExtract_eq_nil (n : Node) :
    ∀ ctx : Option Node, (∀ e ∈ Node.allElems n, Node.qualifies e = false) →
      collectExtract ctx n = [] := by
  cases n with
  | text s => intro ctx _; rfl
  | elem t a cs =>
    intro ctx h
    have hself : Node.qualifies (Node.elem t a cs) = false :=
      h _ (by simp [Node.allElems])
    simp only [collectExtract, hself, Bool.false_eq_true, if_false]
    exact listCollectExtract_eq_nil cs _ (fun e he => h e (by simp [Node.allElems, he]))

theorem listCollectExtract_eq_nil (l : List Node) :
    ∀ ctx : Option Node, (∀ e ∈ Node.listAllElems l, Node.qualifies e = false) →
      listCollectExtract ctx l = [] := by
  cases l with
  | nil => intro ctx _; rfl
  | cons n ns =>
    intro ctx h
    simp only [listCollectExtract]
    rw [collectExtract_eq_nil n ctx (fun e he => h e (by simp [Node.listAllElems, he])),
      listCollectExtract_eq_nil ns ctx (fun e he => h e (by simp [Node.listAllElems, he]))]
    rfl

end

/-- C9: for every parsed body with zero qualifying elements (no element
with a background-color style and no anchor with a non-empty href) the
extractor returns none and the read-note processor leaves the store
untouched — no content update is issued. -/
theorem c9_empty_extract (parseHtml : String → List Node) (store : Store) (note : Note)
    (h : ∀ e ∈ docElems (parseHtml (getContent store note.noteId)),
      Node.qualifies e = false) :
    extract (parseHtml (getContent store note.noteId)) = none ∧
    processReadNote parseHtml store note = store := by
  have hext : extractAll (parseHtml (getContent store note.noteId)) = [] :=
    listCollectExtract_eq_nil _ none h
  have hex : extract (parseHtml (getContent store note.noteId)) = none := by
    unfold extract
    rw [hext]
    simp
  refine ⟨hex, ?_⟩
  unfold processReadNote
  cases hb : note.isProtected with
  | true => simp
  | false =>
    simp only [Bool.false_eq_true, if_false]
    cases ht : note.typ == "text" with
    | false => simp
    | true =>
      simp only [ht, Bool.not_true, Bool.false_eq_true, if_false]
      cases hbl : pyStrip (getContent store note.noteId) == "" with
      | true => simp
      | false =>
        simp only [hbl, Bool.false_eq_true, if_false]
        rw [hex]

/-! ## Missing paragraph context (claim C10) -/

/-- C10: a qualifying element with no block-level ancestor (here nested
only under a non-block `em`) receives a paragraph context of none, and
its group is rendered wrapped in `<p>...</p>` — the no-ancestor case
falls into the same rendering branch as heading contexts instead of
being dropped. -/
theorem c10_context_none (t : String) (a : List (String × String)) (cs : List Node)
    (hq : Node.qualifies (Node.elem t a cs) = true)
    (hnb : (pyStrip (Node.toHtml (Node.removeBg (Node.elem t a cs))) == "") = false) :
    extractAll [Node.elem "em" [] [Node.elem t a cs]] =
      [(Node.removeBg (Node.elem t a cs), none)] ∧
    extractParagraphs [Node.elem "em" [] [Node.elem t a cs]] =
      ["<p>" ++ pyStrip (Node.toHtml (Node.removeBg (Node.elem t a cs))) ++ "</p>"] := by
  have hem : Node.qualifies (Node.elem "em" [] [Node.elem t a cs]) = false := rfl
  have hblock : isBlockTag "em" = false := rfl
  have h1 : extractAll [Node.elem "em" [] [Node.elem t a cs]] =
      [(Node.removeBg (Node.elem t a cs), none)] := by
    simp only [extractAll, listCollectExtract, collectExtract, hem, hblock, hq,
      Bool.false_eq_true, if_false, if_true, List.append_nil]
  refine ⟨h1, ?_⟩
  unfold extractParagraphs
  rw [h1]
  simp only [List.foldl_cons, List.foldl_nil, groupStep]
  simp only [show ((none : Option Node) == none) = true from rfl, if_true]
  simp only [List.nil_append, closeGroup, List.isEmpty_cons, List.map_cons, List.map_nil,
    Bool.false_eq_true, if_false]
  have hjoin : joinStr " " [Node.toHtml (Node.removeBg (Node.elem t a cs))] =
      Node.toHtml (Node.removeBg (Node.elem t a cs)) := rfl
  rw [hjoin, hnb]
  simp

/-! ## The grouping loop versus the run decomposition (claim C3) -/

theorem foldl_groupStep_eq (items : List (Node × Option Node)) :
    ∀ (ps : List String) (cur : List Node) (tag : Option Node),
      (items.foldl groupStep ⟨ps, cur, tag⟩).paragraphs ++
        (closeGroup (items.foldl groupStep ⟨ps, cur, tag⟩).curTag
          (items.foldl groupStep ⟨ps, cur, tag⟩).curElems).toList =
      ps ++ (chunkRunsFrom tag cur items).flatMap (fun p => (closeGroup p.1 p.2).toList) := by
  induction items with
  | nil =>
    intro ps cur tag
    simp [chunkRunsFrom]
  | cons item rest ih =>
    intro ps cur tag
    obtain ⟨e, c⟩ := item
    simp only [List.foldl_cons]
    cases hc : c == tag with
    | true =>
      have hstep : groupStep ⟨ps, cur, tag⟩ (e, c) = ⟨ps, cur ++ [e], tag⟩ := by
        simp only [groupStep, hc, if_true]
      rw [hstep, ih ps (cur ++ [e]) tag]
      simp only [chunkRunsFrom, hc, if_true]
    | false =>
      have hstep : groupStep ⟨ps, cur, tag⟩ (e, c) =
          ⟨ps ++ (closeGroup tag cur).toList, [e], c⟩ := by
        simp only [groupStep, hc, Bool.false_eq_true, if_false, List.nil_append]
      rw [hstep, ih (ps ++ (closeGroup tag cur).toList) [e] c]
      simp only [chunkRunsFrom, hc, Bool.false_eq_true, if_false, List.flatMap_cons,
        List.append_assoc]

theorem chunkRunsFrom_head (items : List (Node × Option Node)) :
    ∀ (tag : Option Node) (cur : List Node),
      ∃ es rest2, chunkRunsFrom tag cur items = (tag, es) :: rest2 := by
  induction items with
  | nil => intro tag cur; exact ⟨cur, [], rfl⟩
  | cons item rest ih =>
    intro tag cur
    obtain ⟨e, c⟩ := item
    cases hc : c == tag with
    | true =>
      simp only [chunkRunsFrom, hc, if_true]
      exact ih tag (cur ++ [e])
    | false =>
      simp only [chunkRunsFrom, hc, Bool.false_eq_true, if_false]
      exact ⟨cur, chunkRunsFrom c [e] rest, rfl⟩

theorem chunkRunsFrom_chain (items : List (Node × Option Node)) :
    ∀ (tag : Option Node) (cur : List Node),
      List.Chain' (fun p q : Option Node × List Node => (q.1 == p.1) = false)
        (chunkRunsFrom tag cur items) := by
  induction items with
  | nil => intro tag cur; simp [chunkRunsFrom]
  | cons item rest ih =>
    intro tag cur
    obtain ⟨e, c⟩ := item
    cases hc : c == tag with
    | true =>
      simp only [chunkRunsFrom, hc, if_true]
      exact ih tag (cur ++ [e])
    | false =>
      simp only [chunkRunsFrom, hc, Bool.false_eq_true, if_false]
      obtain ⟨es, rest2, heq⟩ := chunkRunsFrom_head rest c [e]
      rw [heq]
      refine List.chain'_cons.mpr ⟨hc, ?_⟩
      rw [← heq]
      exact ih c [e]

theorem chunkRunsFrom_flatten (items : List (Node × Option Node)) :
    ∀ (tag : Option Node) (cur : List Node),
      (chunkRunsFrom tag cur items).flatMap Prod.snd = cur ++ items.map Prod.fst := by
  induction items with
  | nil => intro tag cur; simp [chunkRunsFrom]
  | cons item rest ih =>
    intro tag cur
    obtain ⟨e, c⟩ := item
    cases hc : c == tag with
    | true =>
      simp only [chunkRunsFrom, hc, if_true]
      rw [ih tag (cur ++ [e])]
      simp
    | false =>
      simp only [chunkRunsFrom, hc, Bool.false_eq_true, if_false, List.flatMap_cons]
      rw [ih c [e]]
      simp

theorem extractParagraphs_eq_chunkRuns (doc : List Node) :
    extractParagraphs doc =
      (chunkRuns (extractAll doc)).flatMap (fun p => (closeGroup p.1 p.2).toList) := by
  unfold extractParagraphs
  cases hitems : extractAll doc with
  | nil => simp [chunkRuns, closeGroup]
  | cons item rest =>
    obtain ⟨e, c⟩ := item
    simp only [List.foldl_cons]
    cases hc : c == (none : Option Node) with
    | true =>
      have hcn : c = none := eq_of_beq hc
      have hstep : groupStep ⟨[], [], none⟩ (e, c) = ⟨[], [e], none⟩ := by
        simp only [groupStep, hc, if_true, List.nil_append]
      rw [hstep, foldl_groupStep_eq rest [] [e] none]
      simp only [chunkRuns, hcn, List.nil_append]
    | false =>
      have hstep : groupStep ⟨[], [], none⟩ (e, c) = ⟨[], [e], c⟩ := by
        simp only [groupStep, hc, Bool.false_eq_true, if_false, List.nil_append]
        rfl
      rw [hstep, foldl_groupStep_eq rest [] [e] c]
      simp only [chunkRuns, List.nil_append]

/-! ## The background-color rewrite (claim C4) -/

theorem dropWhile_append_all {p : Char → Bool} {l1 : List Char} (l2 : List Char)
    (hall : ∀ x ∈ l1, p x = true) :
    (l1 ++ l2).dropWhile p = l2.dropWhile p := by
  induction l1 with
  | nil => rfl
  | cons c cs ih =>
    have hc : p c = true := hall c (by simp)
    simp only [List.cons_append, List.dropWhile_cons, hc, if_true]
    exact ih (fun x hx => hall x (by simp [hx]))

theorem isPrefixOf_append_self (l m : List Char) : l.isPrefixOf (l ++ m) = true :=
  List.isPrefixOf_iff_prefix.mpr (List.prefix_append l m)

theorem bgMatch_not_b (c : Char) (rest : List Char) (hc : ¬(c = 'b')) :
    bgMatch (c :: rest) = none := by
  unfold bgMatch
  have hpre : bgPat.isPrefixOf (c :: rest) = false := by
    show (('b' == c) && List.isPrefixOf _ _) = false
    rw [beq_eq_false_iff_ne.mpr (fun he => hc he.symm)]
    rfl
  rw [hpre]
  rfl

theorem subBgAux_no_b (l : List Char) (h : ∀ ch ∈ l, ¬(ch = 'b')) :
    ∀ fuel, subBgAux fuel l = l := by
  induction l with
  | nil => intro fuel; cases fuel <;> rfl
  | cons c cs ih =>
    intro fuel
    cases fuel with
    | zero => rfl
    | succ f =>
      simp only [subBgAux, bgMatch_not_b c cs (h c (by simp))]
      rw [ih (fun ch hch => h ch (by simp [hch])) f]

theorem subBgAux_append_no_b (pre : List Char) (h : ∀ ch ∈ pre, ¬(ch = 'b')) :
    ∀ (fuel : Nat) (rest : List Char), pre.length ≤ fuel →
      subBgAux fuel (pre ++ rest) = pre ++ subBgAux (fuel - pre.length) rest := by
  induction pre with
  | nil => intro fuel rest _; simp
  | cons c cs ih =>
    intro fuel rest hlen
    cases fuel with
    | zero => exact absurd hlen (by simp)
    | succ f =>
      simp only [List.cons_append, subBgAux, bgMatch_not_b c _ (h c (by simp)), List.append_eq]
      rw [ih (fun ch hch => h ch (by simp [hch])) f rest (by simpa using hlen)]
      have harith : f + 1 - (c :: cs).length = f - cs.length := by
        simp only [List.length_cons]
        omega
      rw [harith]

theorem bgMatch_decl (v post : List Char) (hv : ∀ ch ∈ v, ¬(ch = ';')) :
    bgMatch (bgPat ++ ':' :: ' ' :: (v ++ ';' :: post)) = some post := by
  unfold bgMatch
  rw [isPrefixOf_append_self]
  simp only [if_true]
  have hdrop : (bgPat ++ ':' :: ' ' :: (v ++ ';' :: post)).drop 16 =
      ':' :: ' ' :: (v ++ ';' :: post) := List.drop_left bgPat _
  rw [hdrop]
  have hdw : (':' :: ' ' :: (v ++ ';' :: post)).dropWhile pySpace =
      ':' :: ' ' :: (v ++ ';' :: post) := by
    rw [List.dropWhile_cons]
    simp [pySpace]
  rw [hdw]
  simp only [show (':' == ':') = true from rfl, if_true]
  have hr3 : (' ' :: (v ++ ';' :: post)).dropWhile (fun d => !(d == ';')) = ';' :: post := by
    have hall : ∀ x ∈ ' ' :: v, (fun d => !(d == ';')) x = true := by
      intro x hx
      rcases List.mem_cons.mp hx with h1 | h1
      · subst h1; rfl
      · simp only [Bool.not_eq_true']
        exact beq_eq_false_iff_ne.mpr (hv x h1)
    have := @dropWhile_append_all (fun d => !(d == ';')) (' ' :: v) (';' :: post) hall
    simp only [List.cons_append] at this
    rw [this]
    rw [List.dropWhile_cons]
    simp
  rw [hr3]
  have hlt : (';' :: post).length < (' ' :: (v ++ ';' :: post)).length := by
    simp only [List.length_cons, List.length_append]
    omega
  rw [if_pos hlt]
  simp

theorem subBgStyle_decl (pre v post : List Char)
    (hpre : ∀ ch ∈ pre, ¬(charLower ch = 'b'))
    (hpost : ∀ ch ∈ post, ¬(charLower ch = 'b'))
    (hv : ∀ ch ∈ v, ¬(ch = ';')) :
    subBgStyle (String.mk (pre ++ (bgPat ++ ':' :: ' ' :: (v ++ ';' :: post)))) =
      String.mk (stripTrailingSemi (pre ++ post)) := by
  have hlowb : charLower 'b' = 'b' := by decide
  have hpreb : ∀ ch ∈ pre, ¬(ch = 'b') := by
    intro ch hch he
    exact hpre ch hch (he ▸ hlowb)
  have hpostb : ∀ ch ∈ post, ¬(ch = 'b') := by
    intro ch hch he
    exact hpost ch hch (he ▸ hlowb)
  unfold subBgStyle
  simp only []
  congr 1
  set decl := bgPat ++ ':' :: ' ' :: (v ++ ';' :: post) with hdecl
  have hlen : (pre ++ decl).length + 0 ≤ (pre ++ decl).length := le_refl _
  have htotal : pre.length ≤ (String.mk (pre ++ decl)).data.length := by
    simp
  rw [subBgAux_append_no_b pre hpreb _ _ htotal]
  congr 1
  have hfuel : (String.mk (pre ++ decl)).data.length - pre.length = decl.length := by
    simp
  rw [hfuel]
  have hdlen : decl.length = 19 + v.length + post.length := by
    rw [hdecl]
    simp [bgPat]
    omega
  cases hfl : decl.length with
  | zero => rw [hdlen] at hfl; omega
  | succ f =>
    have hdecl2 : decl = 'b' :: ('a' :: 'c' :: 'k' :: 'g' :: 'r' :: 'o' :: 'u' :: 'n' :: 'd' ::
        '-' :: 'c' :: 'o' :: 'l' :: 'o' :: 'r' :: (':' :: ' ' :: (v ++ ';' :: post))) := by
      rw [hdecl]
      rfl
    rw [hdecl2]
    simp only [subBgAux]
    rw [← hdecl2, hdecl, bgMatch_decl v post hv]
    simp only []
    have hpostlen : post.length ≤ f := by
      rw [hdecl2] at hfl
      simp only [List.length_cons] at hfl
      simp only [List.length_append, List.length_cons] at hfl
      omega
    exact congrArg (fun z => pre ++ z) (subBgAux_no_b post hpostb f)

theorem mem_stripTrailingSemi (l : List Char) (x : Char) (hx : x ∈ stripTrailingSemi l) :
    x ∈ l := by
  unfold stripTrailingSemi at hx
  cases hrev : l.reverse.dropWhile pySpace with
  | nil => rw [hrev] at hx; exact hx
  | cons c rest =>
    rw [hrev] at hx
    simp only [] at hx
    cases hc : c == ';' with
    | false => rw [hc] at hx; simpa using hx
    | true =>
      rw [hc] at hx
      simp only [if_true] at hx
      have h1 : x ∈ c :: rest := by
        rw [List.mem_reverse] at hx
        exact List.mem_cons_of_mem c hx
      have h2 : x ∈ l.reverse := by
        rw [← hrev] at h1
        exact (List.dropWhile_sublist pySpace).subset h1
      simpa using h2

theorem infixOfL_bg_false (tl : List Char) (hay : List Char)
    (h : ∀ ch ∈ hay, ¬(ch = 'b')) :
    infixOfL ('b' :: tl) hay = false := by
  induction hay with
  | nil => rfl
  | cons c rest ih =>
    simp only [infixOfL]
    have h1 : (('b' :: tl).isPrefixOf (c :: rest)) = false := by
      show (('b' == c) && _) = false
      rw [beq_eq_false_iff_ne.mpr (fun he => (h c (by simp)) he.symm)]
      rfl
    rw [h1, ih (fun ch hch => h ch (by simp [hch]))]
    rfl

theorem c4_no_bg_contains (pre post : List Char)
    (hpre : ∀ ch ∈ pre, ¬(charLower ch = 'b'))
    (hpost : ∀ ch ∈ post, ¬(charLower ch = 'b')) :
    containsStr (strLower (String.mk (stripTrailingSemi (pre ++ post)))) "background-color"
      = false := by
  unfold containsStr strLower
  have hdata : "background-color".data = 'b' :: "ackground-color".data := rfl
  rw [hdata]
  refine infixOfL_bg_false _ _ ?_
  intro ch hch
  simp only [List.mem_map] at hch
  obtain ⟨c0, hc0, hlc⟩ := hch
  have hmem : c0 ∈ pre ++ post := mem_stripTrailingSemi _ _ hc0
  rcases List.mem_append.mp hmem with h1 | h1
  · exact hlc ▸ hpre c0 h1
  · exact hlc ▸ hpost c0 h1

/-- C4 (amended): the background-color stripping is case-sensitive — for
every extracted copy, each occurrence of the lower-case
`background-color: value` declaration is removed from the copy's `style`
attribute, a style emptied by the removal is deleted entirely, and all
other attributes and properties are preserved (up to the separator that
carried the removed declaration); the rewritten copy no longer registers
as highlighted.  Other spellings of the property (which still make the
element qualify, because detection lower-cases) are left in place, as the
C4 counterexample shows. -/
theorem c4_removeBg_family
    (tag cx s : String) (pre v post : List Char)
    (hpre : ∀ ch ∈ pre, ¬(charLower ch = 'b'))
    (hpost : ∀ ch ∈ post, ¬(charLower ch = 'b'))
    (hv : ∀ ch ∈ v, ¬(ch = ';'))
    (hnb : (pyStrip (String.mk (stripTrailingSemi (pre ++ post))) == "") = false) :
    Node.removeBg (Node.elem tag [("class", cx), ("style",
        String.mk (pre ++ (bgPat ++ ':' :: ' ' :: (v ++ ';' :: post))))] [Node.text s]) =
      Node.elem tag [("class", cx), ("style", String.mk (stripTrailingSemi (pre ++ post)))]
        [Node.text s] ∧
    Node.hasBackgroundColor (Node.elem tag [("class", cx),
        ("style", String.mk (stripTrailingSemi (pre ++ post)))] [Node.text s]) = false ∧
    Node.removeBg (Node.elem "span" [("style", "background-color: red")] [Node.text s]) =
      Node.elem "span" [] [Node.text s] := by
  have hkey1 : (("class" : String) == "style") = false := rfl
  have hkey2 : (("style" : String) == "style") = true := rfl
  refine ⟨?_, ?_, ?_⟩
  · have hst : getAttr [("class", cx), ("style",
        String.mk (pre ++ (bgPat ++ ':' :: ' ' :: (v ++ ';' :: post))))] "style" =
        some (String.mk (pre ++ (bgPat ++ ':' :: ' ' :: (v ++ ';' :: post)))) := by
      unfold getAttr
      rw [List.find?_cons, hkey1, List.find?_cons, hkey2]
      rfl
    have hne : (String.mk (pre ++ (bgPat ++ ':' :: ' ' :: (v ++ ';' :: post))) == "") =
        false := by
      refine beq_eq_false_iff_ne.mpr ?_
      intro he
      have hd := congrArg String.data he
      simp only [] at hd
      rw [List.append_eq_nil] at hd
      exact absurd hd.2 (by simp [bgPat])
    simp only [Node.removeBg, hst, hne, Bool.false_eq_true, if_false,
      subBgStyle_decl pre v post hpre hpost hv, hnb, Bool.not_false, if_true]
    simp only [setAttr, List.map_cons, List.map_nil, hkey1, hkey2, Bool.false_eq_true,
      if_false, if_true, Node.listRemoveBg, Node.removeBg]
  · have hst2 : getAttr [("class", cx),
        ("style", String.mk (stripTrailingSemi (pre ++ post)))] "style" =
        some (String.mk (stripTrailingSemi (pre ++ post))) := by
      unfold getAttr
      rw [List.find?_cons, hkey1, List.find?_cons, hkey2]
      rfl
    simp only [Node.hasBackgroundColor, hst2, Option.getD_some]
    exact c4_no_bg_contains pre post hpre hpost
  · rfl

/-! ## Claim theorems -/

/-- C5: the hash-terminated matcher returns, for every text, the first
(leftmost) substring matching `https?://[^#\s]+` that is immediately
followed by a literal `#`, with the trailing `#` excluded; on the §8
text is immediately followed by `#` it returns none. -/
theorem c5_hash_terminated_matcher :
    (∀ (t : String) (u : List Char),
        findUrlHashAux t.data = some u ↔
          ∃ i, specHashMatchAt t.data i u ∧ ∀ j v, j < i → ¬ specHashMatchAt t.data j v) ∧
    findUrlHash "see https://example.com/a#b more" = some "https://example.com/a" ∧
    findUrlHash "see https://example.com/a and more" = none :=
  ⟨fun t u => findUrlHashAux_iff t.data u, by decide, by decide⟩

/-- C7 counterexample: two notes share the trimmed title `Lien inclus : Z`
and the creation day `2024-01-01`, but the run's `TODAY-2` window resolves
to `2024-01-03`, so `get_notes_by_title_and_date` returns the empty list
instead of the claimed set of both notes: the lookup is not complete
"regardless of how far in the past that calendar day lies". -/
theorem c7_counterexample :
    getNotesByTitleAndDate ⟨[oldN1, oldN2], []⟩ "2024-01-03" "Lien inclus : Z" "2024-01-01"
        = [] ∧
    ([oldN1, oldN2] : List Note).filter
        (fun n => pyStrip n.title == "Lien inclus : Z" &&
          datePart n.dateCreated == "2024-01-01") = [oldN1, oldN2] := by
  decide

/-- C7 (amended): the duplicate query returns exactly the notes whose
stored title equals the candidate's trimmed title and whose `createdAt`
day equals the candidate's creation day, restricted to the store's
`TODAY-2` search window; whenever the candidate's day is on or after the
resolved cutoff, the window is no restriction and the result is exactly
the same-title same-day subset of the store. -/
theorem c7_window_complete (s : Store) (cutoff title dateStr : String)
    (h : strLe cutoff dateStr = true) :
    getNotesByTitleAndDate s cutoff title dateStr =
      s.notes.filter (fun n => n.title == title && datePart n.dateCreated == dateStr) :=
  getNotesByTitleAndDate_eq s cutoff title dateStr h

/-- C7 witness: on the §8 store the window cutoff `2024-01-03` is at or
before the candidate day `2024-01-05`, and the query returns exactly the
same-title same-day notes. -/
theorem c7_window_complete_witness :
    strLe "2024-01-03" "2024-01-05" = true ∧
    getNotesByTitleAndDate ⟨[lienN1, lienN2, lienN3], []⟩ "2024-01-03" "Lien inclus : X"
        "2024-01-05" =
      ([lienN1, lienN2, lienN3] : List Note).filter
        (fun n => n.title == "Lien inclus : X" && datePart n.dateCreated == "2024-01-05") :=
  ⟨by decide, c7_window_complete ⟨[lienN1, lienN2, lienN3], []⟩ "2024-01-03" "Lien inclus : X"
    "2024-01-05" (by decide)⟩

/-- C3 counterexample: in the document
`<div><span bg>X</span><p><span bg>Y</span></p><span bg>Z</span></div>`
the first and third highlights have the same nearest block ancestor (the
`div`), yet the extractor emits them in two different output blocks,
because the nested `p` highlight between them changes the paragraph
context; the claim that same-ancestor elements always share one output
block is false. -/
theorem c3_counterexample :
    (extractAll c3Doc).map Prod.snd =
      [some (Node.elem "div" []
        [Node.elem "span" [("style", "background-color: y;")] [Node.text "X"],
         Node.elem "p" [] [Node.elem "span" [("style", "background-color: y;")] [Node.text "Y"]],
         Node.elem "span" [("style", "background-color: y;")] [Node.text "Z"]]),
       some (Node.elem "p" [] [Node.elem "span" [("style", "background-color: y;")] [Node.text "Y"]]),
       some (Node.elem "div" []
        [Node.elem "span" [("style", "background-color: y;")] [Node.text "X"],
         Node.elem "p" [] [Node.elem "span" [("style", "background-color: y;")] [Node.text "Y"]],
         Node.elem "span" [("style", "background-color: y;")] [Node.text "Z"]])] ∧
    extractParagraphs c3Doc =
      ["<div><span>X</span></div>", "<p><span>Y</span></p>", "<div><span>Z</span></div>"] := by
  constructor
  · decide
  · decide

/-- C3 (amended): the extractor's output blocks are exactly the maximal
runs of consecutive extracted fragments whose paragraph contexts are
equal (bs4 structural equality), rendered in document order: the grouping
loop closes a group exactly when the context changes between consecutive
fragments; adjacent runs have different contexts, and the runs partition
the extracted sequence in order. -/
theorem c3_grouping_by_runs :
    (∀ doc : List Node,
      extractParagraphs doc =
        (chunkRuns (extractAll doc)).flatMap (fun p => (closeGroup p.1 p.2).toList)) ∧
    (∀ items : List (Node × Option Node),
      List.Chain' (fun p q : Option Node × List Node => (q.1 == p.1) = false)
        (chunkRuns items)) ∧
    (∀ items : List (Node × Option Node),
      (chunkRuns items).flatMap Prod.snd = items.map Prod.fst) := by
  refine ⟨extractParagraphs_eq_chunkRuns, ?_, ?_⟩
  · intro items
    cases items with
    | nil => simp [chunkRuns]
    | cons item rest =>
      obtain ⟨e, c⟩ := item
      exact chunkRunsFrom_chain rest c [e]
  · intro items
    cases items with
    | nil => simp [chunkRuns]
    | cons item rest =>
      obtain ⟨e, c⟩ := item
      simp only [chunkRuns]
      rw [chunkRunsFrom_flatten rest c [e]]
      simp

/-- C2 counterexample: a protected note whose title starts with
`Lien inclus` is routed into the merge path of `process_link_notes`, which
never checks `isProtected`: processing it issues a `create_attribute` call
and the store's attribute list changes — a store-mutating operation on a
protected note. -/
theorem c2_counterexample :
    protNote.isProtected = true ∧
    (processLinkNotes (fun _ => false) (fun _ => none) (fun _ => none) "2024-01-03"
        ⟨[protNote], []⟩ [protNote]).store.attrs =
      [⟨"p1", "label", "pageUrl", "http://z", false⟩] := by
  decide

/-- C2 (amended): the regular-link processor and the read-note processor
do skip protected notes — for every store and protected note they leave
the store unchanged; the `Lien inclus` merge path performs no such check
and can mutate protected notes, as the C2 counterexample shows. -/
theorem c2_protected_paths_hold (fetchArticle : String → Option ArticleData)
    (parseHtml : String → List Node) (store : Store) (note : Note)
    (hp : note.isProtected = true) :
    processRegularLink fetchArticle store note = store ∧
    processReadNote parseHtml store note = store := by
  constructor
  · unfold processRegularLink
    rw [hp]
    simp
  · unfold processReadNote
    rw [hp]
    simp

/-- C2 witness: the two protected-aware processors leave a concrete store
with one protected note untouched. -/
theorem c2_protected_paths_hold_witness :
    processRegularLink (fun _ => none) ⟨[protNote], []⟩ protNote = ⟨[protNote], []⟩ ∧
    processReadNote (fun _ => []) ⟨[protNote], []⟩ protNote = ⟨[protNote], []⟩ :=
  c2_protected_paths_hold (fun _ => none) (fun _ => []) ⟨[protNote], []⟩ protNote (by decide)

/-- C4 counterexample: a highlight whose inline style spells the property
`BACKGROUND-COLOR` qualifies for extraction (the detection lower-cases),
but the case-sensitive stripping regex leaves the property in the copy's
style attribute: the extracted fragment still carries the background color
and still qualifies, so the property was not removed. -/
theorem c4_counterexample :
    (extractAll c4Doc).map Prod.fst =
      [Node.elem "span" [("style", "BACKGROUND-COLOR:red")] [Node.text "X"]] ∧
    extract c4Doc = some "<p><span style=\"BACKGROUND-COLOR:red\">X</span></p>" ∧
    Node.hasBackgroundColor
      (Node.elem "span" [("style", "BACKGROUND-COLOR:red")] [Node.text "X"]) = true := by
  decide

/-- C4 witness: on a concrete highlight with a lower-case declaration
between two other properties, the copy's rewritten style keeps the other
properties, drops the `background-color` declaration, no longer registers
as highlighted, and a style emptied by the removal is deleted entirely. -/
theorem c4_removeBg_family_witness :
    Node.removeBg (Node.elem "span" [("class", "hl"),
        ("style", "color: red; background-color: yellow; z: w")] [Node.text "X"]) =
      Node.elem "span" [("class", "hl"), ("style", "color: red;  z: w")] [Node.text "X"] ∧
    Node.hasBackgroundColor (Node.elem "span" [("class", "hl"),
        ("style", "color: red;  z: w")] [Node.text "X"]) = false ∧
    Node.removeBg (Node.elem "span" [("style", "background-color: red")] [Node.text "X"]) =
      Node.elem "span" [] [Node.text "X"] := by
  have h := c4_removeBg_family "span" "hl" "X" "color: red; ".data "yellow".data " z: w".data
    (by decide) (by decide) (by decide) (by decide)
  exact h

/-- C1 witness: the §8 three-note scenario: the 08:00 note becomes the
target, its final body is the blank-line concatenation of the three
bodies, the 12:00 and 18:00 notes are deleted, and the `pageUrl` label is
`http://z` (the hash-terminated match). -/
theorem c1_merge_general_witness :
    getContent (processLienNote (fun _ => false) (fun _ => none) "2024-01-03"
        ⟨⟨[lienN1, lienN2, lienN3], []⟩, ⟨0, 0, 0, []⟩⟩ lienN1).store "n1" =
      "A\nhttp://x\n\nB\nhttp://y\n\nC http://z#" ∧
    getNote (processLienNote (fun _ => false) (fun _ => none) "2024-01-03"
        ⟨⟨[lienN1, lienN2, lienN3], []⟩, ⟨0, 0, 0, []⟩⟩ lienN1).store "n2" = none ∧
    getNote (processLienNote (fun _ => false) (fun _ => none) "2024-01-03"
        ⟨⟨[lienN1, lienN2, lienN3], []⟩, ⟨0, 0, 0, []⟩⟩ lienN1).store "n3" = none ∧
    (processLienNote (fun _ => false) (fun _ => none) "2024-01-03"
        ⟨⟨[lienN1, lienN2, lienN3], []⟩, ⟨0, 0, 0, []⟩⟩ lienN1).store.attrs =
      [⟨"n1", "label", "pageUrl", "http://z", false⟩] := by
  have h := c1_merge_general lienN1 [lienN2, lienN3] lienN1 "2024-01-03" "http://z" []
    ⟨0, 0, 0, []⟩ (fun _ => none) (by decide) (by decide) (by decide) (by decide)
    (by decide) (by decide) (by decide)
    (List.chain'_cons.mpr ⟨by decide, List.chain'_cons.mpr ⟨by decide, List.chain'_singleton _⟩⟩) (by decide)
  exact ⟨h.1, h.2.1 lienN2 (by decide), h.2.1 lienN3 (by decide), h.2.2⟩

/-- A lone clip note with a hash-terminated URL in its body. -/
def loneNote : Note :=
  ⟨"L1", "Lien inclus : Y", "text", false, "2024-01-05 09:00", "C http://z#"⟩

/-- C6 witness: a lone `Lien inclus` note with no duplicates still gets
processed: the `pageUrl` label is created from the hash-terminated URL of
its body and the note is renamed to the resolver's title. -/
theorem c6_retitle_general_witness :
    (processLienNote (fun _ => false) (fun _ => some "Nice Title") "2024-01-03"
        ⟨⟨[loneNote], []⟩, ⟨0, 0, 0, []⟩⟩ loneNote).res.processed = 1 ∧
    (processLienNote (fun _ => false) (fun _ => some "Nice Title") "2024-01-03"
        ⟨⟨[loneNote], []⟩, ⟨0, 0, 0, []⟩⟩ loneNote).store =
      patchTitle (createAttr ⟨[loneNote], []⟩ ⟨"L1", "label", "pageUrl", "http://z", false⟩)
        "L1" "Nice Title" := by
  have h := c6_retitle_general loneNote "2024-01-03" ⟨[loneNote], []⟩ ⟨0, 0, 0, []⟩
    (fun _ => some "Nice Title") (by decide) (by decide) (by decide)
  exact ⟨h.1, h.2.1 "http://z" "Nice Title" (by decide) rfl⟩

/-- C8 witness: in the §8 scenario with the deletion of the 12:00 note
failing, its failure is the only error entry, the target still receives
the full three-body concatenation, and the 18:00 note is still deleted. -/
theorem c8_error_isolation_general_witness :
    (processLienNote (fun id => id == "n2") (fun _ => none) "2024-01-03"
        ⟨⟨[lienN1, lienN2, lienN3], []⟩, ⟨0, 0, 0, []⟩⟩ lienN1).res.errors =
      ["Failed to delete duplicate note n2"] ∧
    getContent (processLienNote (fun id => id == "n2") (fun _ => none) "2024-01-03"
        ⟨⟨[lienN1, lienN2, lienN3], []⟩, ⟨0, 0, 0, []⟩⟩ lienN1).store "n1" =
      "A\nhttp://x\n\nB\nhttp://y\n\nC http://z#" ∧
    getNote (processLienNote (fun id => id == "n2") (fun _ => none) "2024-01-03"
        ⟨⟨[lienN1, lienN2, lienN3], []⟩, ⟨0, 0, 0, []⟩⟩ lienN1).store "n3" = none := by
  have h := c8_error_isolation_general lienN1 [lienN2, lienN3] lienN1 lienN2 "2024-01-03" []
    0 0 0 (fun _ => none) (by decide) (by decide) (by decide) (by decide) (by decide)
    (by decide) (by decide)
    (List.chain'_cons.mpr ⟨by decide, List.chain'_cons.mpr ⟨by decide, List.chain'_singleton _⟩⟩)
  exact ⟨h.1, h.2.1, h.2.2 lienN3 (by decide) (by decide)⟩

/-- A plain read note whose body contains no highlight and no link. -/
def readNote1 : Note :=
  ⟨"r1", "Read me", "text", false, "2024-01-05 10:00", "<p>plain</p>"⟩

/-- C9 witness: on a parsed body with no qualifying element the extractor
returns none and the read-note processor leaves the store unchanged. -/
theorem c9_empty_extract_witness :
    extract [Node.elem "p" [] [Node.text "plain"]] = none ∧
    processReadNote (fun _ => [Node.elem "p" [] [Node.text "plain"]])
      ⟨[readNote1], []⟩ readNote1 = ⟨[readNote1], []⟩ := by
  have h := c9_empty_extract (fun _ => [Node.elem "p" [] [Node.text "plain"]])
    ⟨[readNote1], []⟩ readNote1 (by decide)
  exact h

/-- C10 witness: a highlighted span with no block-level ancestor gets the
empty paragraph context and its group is rendered wrapped in `<p>`. -/
theorem c10_context_none_witness :
    extractAll [Node.elem "em" [] [Node.elem "span" [("style", "background-color: yellow")]
        [Node.text "hi"]]] = [(Node.elem "span" [] [Node.text "hi"], none)] ∧
    extractParagraphs [Node.elem "em" [] [Node.elem "span" [("style", "background-color: yellow")]
        [Node.text "hi"]]] = ["<p><span>hi</span></p>"] := by
  have h := c10_context_none "span" [("style", "background-color: yellow")] [Node.text "hi"]
    (by decide) (by decide)
  exact h
